import Mathlib

/-!
Verification of the coderoom repository index (src/db.rs, src/commits.rs,
src/scan.rs) against its specification.  The SQLite-backed store is embedded
as lists of rows, the git object model as an oracle structure, and the
filesystem as explicit trees; every operation below is a direct translation
of the corresponding Rust function.
-/

namespace Coderoom

/-! ## String helpers

SQLite's LIKE operator treats the pattern characters percent and underscore
as wildcards and compares ASCII letters case-insensitively (the engine's
default, which src/db.rs never changes).  We model it on character lists so
that it evaluates inside the kernel. -/

/-- LIKE pattern matching: percent matches any sequence, underscore matches
exactly one character, letters fold ASCII case.  Structural on the pattern. -/
def likeMatch : List Char → List Char → Bool
  | [], s => s.isEmpty
  | '%' :: p, s => (List.range (s.length + 1)).any (fun k => likeMatch p (s.drop k))
  | '_' :: p, s =>
    match s with
    | [] => false
    | _ :: s1 => likeMatch p s1
  | a :: p, s =>
    match s with
    | [] => false
    | c :: s1 => (a.toLower == c.toLower) && likeMatch p s1

/-- SQLite `text LIKE pattern` with default (ASCII case-insensitive) collation. -/
def sqlLike (pat s : String) : Bool := likeMatch pat.toList s.toList

/-- Kernel-evaluable model of `str::ends_with`. -/
def ends_with_list (l suf : List Char) : Bool :=
  decide (List.drop (l.length - suf.length) l = suf) && decide (suf.length ≤ l.length)

/-- Kernel-evaluable model of `str::ends_with` on strings. -/
def str_ends_with (s suf : String) : Bool := ends_with_list s.toList suf.toList

/-- Kernel-evaluable model of `str::starts_with` on strings. -/
def str_starts_with (s pre : String) : Bool :=
  decide (List.take pre.toList.length s.toList = pre.toList)

/-! ## Data model (src/db.rs)

One Lean structure per SQLite table row and per Rust row struct.  Integer
ids are `Nat` (AUTOINCREMENT rowids), timestamps are `Int` (i64 epoch
seconds). -/

/-- Row of the `repos` table, as read back by queries (src/db.rs `RepoRow`). -/
structure RepoRow where
  id : Nat
  path : String
  name : String
  default_branch : Option String
  last_commit_ts : Option Int
  last_scan_ts : Int
  readme_excerpt : Option String
  origin_url : Option String
  last_access_ts : Option Int
deriving DecidableEq

/-- Metadata handed to `upsert_repo` (src/db.rs `RepoMeta`). -/
structure RepoMeta where
  path : String
  name : String
  default_branch : Option String
  last_commit_ts : Option Int
  last_scan_ts : Int
  readme_excerpt : Option String
  origin_url : Option String
deriving DecidableEq

/-- Row of the `tags` table. -/
structure TagRow where
  id : Nat
  name : String
deriving DecidableEq

/-- Row of the `repo_tags` association table. -/
structure RepoTagRow where
  repo_id : Nat
  tag_id : Nat
deriving DecidableEq

/-- Branch tip handed to `replace_commit_index_for_repo` (src/db.rs `CommitBranch`). -/
structure CommitBranch where
  kind : String
  name : String
  refname : String
  tip_time : Option Int
deriving DecidableEq

/-- Commit row handed to `replace_commit_index_for_repo` (src/db.rs `CommitIndexRow`). -/
structure CommitIndexRow where
  refname : String
  branch_kind : String
  branch_name : String
  oid : String
  time : Option Int
  author : Option String
  email : Option String
  summary : Option String
  message : Option String
deriving DecidableEq

/-- Row of the `commit_branches` table (with its owning repo id). -/
structure BranchRow where
  repo_id : Nat
  kind : String
  name : String
  refname : String
  tip_time : Option Int
deriving DecidableEq

/-- Row of the `commits` table (with its owning repo id). -/
structure CommitRow where
  repo_id : Nat
  refname : String
  branch_kind : String
  branch_name : String
  oid : String
  time : Option Int
  author : Option String
  email : Option String
  summary : Option String
  message : Option String
deriving DecidableEq

/-- Search hit returned by `search_commits_paged` (src/db.rs `CommitHit`). -/
structure CommitHit where
  repo_name : String
  repo_path : String
  branch_kind : String
  branch_name : String
  refname : String
  oid : String
  time : Option Int
  summary : Option String
  message : Option String
deriving DecidableEq

/-- Paged query result (src/db.rs `Paged`). -/
structure Paged (α : Type) where
  total : Nat
  items : List α
deriving DecidableEq

/-- The whole SQLite database state.  The schema (src/db.rs `init_schema`)
makes `repos.path` and `tags.name` unique and both association and commit
tables cascade-delete with their owning repo. -/
structure Store where
  repos : List RepoRow
  tags : List TagRow
  repoTags : List RepoTagRow
  commitBranches : List BranchRow
  commits : List CommitRow
  nextRepoId : Nat
  nextTagId : Nat
deriving DecidableEq

/-! ## Store operations (src/db.rs) -/

/-- SELECT id FROM repos WHERE path = ?1 (src/db.rs `repo_id_by_path`). -/
def repo_id_by_path (s : Store) (p : String) : Option Nat :=
  (s.repos.find? (fun r => r.path == p)).map (fun r => r.id)

/-- INSERT INTO repos ... ON CONFLICT(path) DO UPDATE (src/db.rs `upsert_repo`).
The conflict branch overwrites the six metadata columns and leaves id and
last_access_ts alone; the insert branch starts with a NULL last_access_ts. -/
def upsert_repo (s : Store) (meta : RepoMeta) : Store :=
  if s.repos.any (fun r => r.path == meta.path) then
    { s with repos := s.repos.map (fun r =>
        if r.path == meta.path then
          { r with name := meta.name, default_branch := meta.default_branch,
                   last_commit_ts := meta.last_commit_ts, last_scan_ts := meta.last_scan_ts,
                   readme_excerpt := meta.readme_excerpt, origin_url := meta.origin_url }
        else r) }
  else
    let inserted : RepoRow :=
      { id := s.nextRepoId, path := meta.path, name := meta.name,
        default_branch := meta.default_branch, last_commit_ts := meta.last_commit_ts,
        last_scan_ts := meta.last_scan_ts, readme_excerpt := meta.readme_excerpt,
        origin_url := meta.origin_url, last_access_ts := none }
    { s with repos := s.repos ++ [inserted], nextRepoId := s.nextRepoId + 1 }

/-- DELETE FROM repo_tags ...; DELETE FROM tags WHERE orphaned
(src/db.rs `remove_tag_from_repo`).  Fails when the path is not indexed;
silently succeeds when the tag name does not exist. -/
def remove_tag_from_repo (s : Store) (repo_path tag : String) : Except String Store :=
  match repo_id_by_path s repo_path with
  | none => .error ("repo not indexed: " ++ repo_path)
  | some rid =>
    match (s.tags.find? (fun t => t.name == tag)).map (fun t => t.id) with
    | none => .ok s
    | some tid =>
      let s1 : Store :=
        { s with repoTags := s.repoTags.filter (fun rt => !(rt.repo_id == rid && rt.tag_id == tid)) }
      if s1.repoTags.any (fun rt => rt.tag_id == tid) then .ok s1
      else .ok { s1 with tags := s1.tags.filter (fun t => !(t.id == tid)) }

/-- The branch row inserted for a repo id by the commit-index replace. -/
def branch_row_for (rid : Nat) (b : CommitBranch) : BranchRow :=
  { repo_id := rid, kind := b.kind, name := b.name, refname := b.refname,
    tip_time := b.tip_time }

/-- The commit row inserted for a repo id by the commit-index replace. -/
def commit_row_for (rid : Nat) (c : CommitIndexRow) : CommitRow :=
  { repo_id := rid, refname := c.refname, branch_kind := c.branch_kind,
    branch_name := c.branch_name, oid := c.oid, time := c.time, author := c.author,
    email := c.email, summary := c.summary, message := c.message }

/-- The schema's UNIQUE(repo_id, refname) on commit_branches: an insert for
this repo conflicts with a present row carrying the same refname. -/
def branch_conflict (rid : Nat) (table : List BranchRow) (b : CommitBranch) : Bool :=
  table.any (fun br => br.repo_id == rid && br.refname == b.refname)

/-- The branch insert loop of the replace transaction: each INSERT fails on
a UNIQUE(repo_id, refname) violation, aborting the transaction. -/
def insert_branch_rows (rid : Nat) :
    List CommitBranch → List BranchRow → Except String (List BranchRow)
  | [], table => .ok table
  | b :: bs, table =>
    if branch_conflict rid table b then
      .error "UNIQUE constraint failed: commit_branches.repo_id, commit_branches.refname"
    else insert_branch_rows rid bs (table ++ [branch_row_for rid b])

/-- The schema's UNIQUE(repo_id, refname, oid) on commits. -/
def commit_conflict (rid : Nat) (table : List CommitRow) (c : CommitIndexRow) : Bool :=
  table.any (fun cr => cr.repo_id == rid && cr.refname == c.refname && cr.oid == c.oid)

/-- The commit insert loop of the replace transaction: each INSERT fails on
a UNIQUE(repo_id, refname, oid) violation, aborting the transaction. -/
def insert_commit_rows (rid : Nat) :
    List CommitIndexRow → List CommitRow → Except String (List CommitRow)
  | [], table => .ok table
  | c :: cs, table =>
    if commit_conflict rid table c then
      .error "UNIQUE constraint failed: commits.repo_id, commits.refname, commits.oid"
    else insert_commit_rows rid cs (table ++ [commit_row_for rid c])

/-- DELETE + bulk INSERT inside one transaction
(src/db.rs `replace_commit_index_for_repo`).  The unindexed-path lookup
fails before the transaction starts; inside it, the two deletes cannot
fail, and each insert can hit its table's UNIQUE constraint, in which case
the error propagates, the dropped transaction rolls back, and the model
returns the error with no new state (other data-dependent failures cannot
occur: every NOT NULL column is non-optional and the repo id exists).  The
transaction commits only after every statement succeeded, so success is
one state change. -/
def replace_commit_index_for_repo (s : Store) (repo_path : String)
    (branches : List CommitBranch) (rows : List CommitIndexRow) : Except String Store :=
  match repo_id_by_path s repo_path with
  | none => .error ("repo not indexed: " ++ repo_path)
  | some rid =>
    match insert_branch_rows rid branches
        (s.commitBranches.filter (fun b => !(b.repo_id == rid))) with
    | .error e => .error e
    | .ok tb =>
      match insert_commit_rows rid rows
          (s.commits.filter (fun c => !(c.repo_id == rid))) with
      | .error e => .error e
      | .ok tc => .ok { s with commitBranches := tb, commits := tc }

/-- DELETE FROM repos WHERE path = ?1, with the schema's ON DELETE CASCADE
on repo_tags, commit_branches and commits.  Returns the deleted row count. -/
def delete_repo_by_path (s : Store) (p : String) : Store × Nat :=
  let gone := (s.repos.filter (fun r => r.path == p)).map (fun r => r.id)
  ({ s with
      repos := s.repos.filter (fun r => !(r.path == p)),
      repoTags := s.repoTags.filter (fun rt => !(gone.contains rt.repo_id)),
      commitBranches := s.commitBranches.filter (fun b => !(gone.contains b.repo_id)),
      commits := s.commits.filter (fun c => !(gone.contains c.repo_id)) },
    (s.repos.filter (fun r => r.path == p)).length)

/-- DELETE FROM tags WHERE no repo_tags row references them
(src/db.rs `prune_orphan_tags`). -/
def prune_orphan_tags (s : Store) : Store :=
  { s with tags := s.tags.filter (fun t => s.repoTags.any (fun rt => rt.tag_id == t.id)) }

/-- The delete loop of `prune_under_root`: for every selected path not in
the keep set, delete that repo row and add the count. -/
def prune_loop (keep : List String) : List String → Store → Store × Nat
  | [], s => (s, 0)
  | p :: ps, s =>
    if keep.contains p then prune_loop keep ps s
    else
      let d := delete_repo_by_path s p
      let rest := prune_loop keep ps d.1
      (rest.1, d.2 + rest.2)

/-- The LIKE pattern `prune_under_root` builds: the root, a trailing path
separator when missing (main separator, here the Unix slash), then percent. -/
def prune_like_pattern (root : String) : String :=
  (if str_ends_with root "/" then root else root ++ "/") ++ "%"

/-- SELECT path FROM repos WHERE path LIKE ?1, then delete all selected
paths outside the keep set and prune orphaned tags
(src/db.rs `prune_under_root`). -/
def prune_under_root (s : Store) (root : String) (keep : List String) : Store × Nat :=
  let pat := prune_like_pattern root
  let selected := (s.repos.filter (fun r => sqlLike pat r.path)).map (fun r => r.path)
  let res := prune_loop keep selected s
  (prune_orphan_tags res.1, res.2)

/-! ## Paged search and listing (src/db.rs)

Every paged entry point first clamps its pagination arguments:
`page.max(1)` and `per_page.clamp(1, 200)`.  The clamping is split into a
wrapper so its idempotence can be stated; the aux functions are the body of
the Rust functions after the two clamping lines. -/

/-- Rust `page.max(1)`. -/
def clamp_page (page : Nat) : Nat := max page 1

/-- Rust `per_page.clamp(1, 200)`. -/
def clamp_per_page (per_page : Nat) : Nat := min (max per_page 1) 200

/-- Tag names of a repo through repo_tags JOIN tags, in association order. -/
def tag_names_of (s : Store) (rid : Nat) : List String :=
  s.repoTags.filterMap (fun rt =>
    if rt.repo_id == rid then (s.tags.find? (fun t => t.id == rt.tag_id)).map (fun t => t.name)
    else none)

/-- GROUP_CONCAT(t.name, ',') followed by the Rust-side split on commas and
drop of blank pieces. -/
def display_tags (names : List String) : List String :=
  ((String.intercalate "," names).splitOn ",").filter (fun t => !t.trim.isEmpty)

/-- ORDER BY r.name ASC. -/
def repo_name_le (a b : RepoRow) : Prop := a.name ≤ b.name

instance : DecidableRel repo_name_le := fun a b =>
  inferInstanceAs (Decidable (a.name ≤ b.name))

/-- ORDER BY COALESCE(r.last_access_ts, 0) DESC, r.name ASC. -/
def repo_recent_le (a b : RepoRow) : Prop :=
  b.last_access_ts.getD 0 < a.last_access_ts.getD 0 ∨
    (a.last_access_ts.getD 0 = b.last_access_ts.getD 0 ∧ a.name ≤ b.name)

instance : DecidableRel repo_recent_le := fun a b =>
  inferInstanceAs (Decidable (b.last_access_ts.getD 0 < a.last_access_ts.getD 0 ∨
    (a.last_access_ts.getD 0 = b.last_access_ts.getD 0 ∧ a.name ≤ b.name)))

/-- ORDER BY COALESCE(c.time, 0) DESC. -/
def hit_time_le (a b : CommitHit) : Prop := b.time.getD 0 ≤ a.time.getD 0

instance : DecidableRel hit_time_le := fun a b =>
  inferInstanceAs (Decidable (b.time.getD 0 ≤ a.time.getD 0))

/-- The WHERE clause of the filtered repository search, per repo.  The SQL
LEFT JOINs repo_tags and tags, so a repo with no tags contributes one joined
row whose COALESCE(t.name, '') is the empty string, and a repo matches when
some joined row satisfies the OR of the enabled field conditions. -/
def repo_matches (s : Store) (in_name in_path in_readme in_tags : Bool) (q : String)
    (r : RepoRow) : Bool :=
  (in_name && sqlLike q r.name) ||
  (in_path && sqlLike q r.path) ||
  (in_readme && sqlLike q (r.readme_excerpt.getD "")) ||
  (in_tags &&
    (if (tag_names_of s r.id).isEmpty then sqlLike q ""
     else (tag_names_of s r.id).any (fun n => sqlLike q n)))

/-- Body of `search_repos_with_tags_paged_filtered` after clamping
(src/db.rs lines 593 on): flag defaulting, COUNT(DISTINCT r.id) for the
total, then the page slice ordered by name. -/
def search_repos_filtered_aux (s : Store) (query : String)
    (in_name in_path in_readme in_tags : Bool) (page per_page : Nat) :
    Paged (RepoRow × List String) :=
  let offset := (page - 1) * per_page
  let q := "%" ++ query ++ "%"
  let flags :=
    if !(in_name || in_path || in_readme || in_tags) then (true, true, true, true)
    else (in_name, in_path, in_readme, in_tags)
  let matched := s.repos.filter (repo_matches s flags.1 flags.2.1 flags.2.2.1 flags.2.2.2 q)
  let total := ((matched.map (fun r => r.id)).dedup).length
  let sorted := List.insertionSort repo_name_le matched
  { total := total,
    items := ((sorted.drop offset).take per_page).map
      (fun r => (r, display_tags (tag_names_of s r.id))) }

/-- src/db.rs `search_repos_with_tags_paged_filtered`. -/
def search_repos_with_tags_paged_filtered (s : Store) (query : String)
    (in_name in_path in_readme in_tags : Bool) (page per_page : Nat) :
    Paged (RepoRow × List String) :=
  search_repos_filtered_aux s query in_name in_path in_readme in_tags
    (clamp_page page) (clamp_per_page per_page)

/-- The commit WHERE clause: `c.summary LIKE ?1` (a NULL summary never
matches, SQL three-valued logic) OR `COALESCE(c.message, '') LIKE ?1`,
each part present only when its flag is enabled. -/
def commit_matches (in_summary in_message : Bool) (q : String) (c : CommitRow) : Bool :=
  (in_summary && (match c.summary with | none => false | some t => sqlLike q t)) ||
  (in_message && sqlLike q (c.message.getD ""))

/-- The optional branch restriction: branch name or refname contains the
filter substring. -/
def commit_branch_matches (bp : String) (c : CommitRow) : Bool :=
  sqlLike bp c.branch_name || sqlLike bp c.refname

/-- JOIN repos r ON r.id = c.repo_id, producing the displayed hit. -/
def commit_hit_of (r : RepoRow) (c : CommitRow) : CommitHit :=
  { repo_name := r.name, repo_path := r.path, branch_kind := c.branch_kind,
    branch_name := c.branch_name, refname := c.refname, oid := c.oid,
    time := c.time, summary := c.summary, message := c.message }

/-- Body of `search_commits_paged` after clamping (src/db.rs lines 879 on).
The total without a branch filter is COUNT(*) over commits alone; with a
branch filter the count query JOINs repos, like the item query always does
(ids are unique, so the join keeps one row per commit whose repo exists). -/
def search_commits_aux (s : Store) (query : String) (branch : Option String)
    (in_summary in_message : Bool) (page per_page : Nat) : Paged CommitHit :=
  let offset := (page - 1) * per_page
  let q := "%" ++ query ++ "%"
  let flags := if !(in_summary || in_message) then (true, true) else (in_summary, in_message)
  match branch with
  | some b =>
    let bp := "%" ++ b ++ "%"
    let matched := s.commits.filter (fun c =>
      commit_matches flags.1 flags.2 q c && commit_branch_matches bp c)
    let joined := matched.filterMap (fun c =>
      (s.repos.find? (fun r => r.id == c.repo_id)).map (fun r => commit_hit_of r c))
    { total := joined.length,
      items := ((List.insertionSort hit_time_le joined).drop offset).take per_page }
  | none =>
    let matched := s.commits.filter (fun c => commit_matches flags.1 flags.2 q c)
    let joined := matched.filterMap (fun c =>
      (s.repos.find? (fun r => r.id == c.repo_id)).map (fun r => commit_hit_of r c))
    { total := matched.length,
      items := ((List.insertionSort hit_time_le joined).drop offset).take per_page }

/-- src/db.rs `search_commits_paged`. -/
def search_commits_paged (s : Store) (query : String) (branch : Option String)
    (in_summary in_message : Bool) (page per_page : Nat) : Paged CommitHit :=
  search_commits_aux s query branch in_summary in_message
    (clamp_page page) (clamp_per_page per_page)

/-- Body of `list_repos_with_tags_paged` after clamping (src/db.rs lines
360 on): optional tag filter via EXISTS, COUNT(*) under the same filter,
recent-first or name ordering, then the page slice. -/
def list_repos_aux (s : Store) (tag : Option String) (recent : Bool)
    (page per_page : Nat) : Paged (RepoRow × List String) :=
  let offset := (page - 1) * per_page
  let base :=
    match tag with
    | some tname => s.repos.filter (fun r =>
        s.repoTags.any (fun rt =>
          rt.repo_id == r.id &&
            ((s.tags.find? (fun t => t.id == rt.tag_id)).map (fun t => t.name) == some tname)))
    | none => s.repos
  let sorted :=
    if recent then List.insertionSort repo_recent_le base
    else List.insertionSort repo_name_le base
  { total := base.length,
    items := ((sorted.drop offset).take per_page).map
      (fun r => (r, display_tags (tag_names_of s r.id))) }

/-- src/db.rs `list_repos_with_tags_paged`. -/
def list_repos_with_tags_paged (s : Store) (tag : Option String) (recent : Bool)
    (page per_page : Nat) : Paged (RepoRow × List String) :=
  list_repos_aux s tag recent (clamp_page page) (clamp_per_page per_page)

/-! ## Commit index builder (src/commits.rs)

The git2 object model is an oracle structure: branch enumerations, commit
lookup, and the time-sorted revwalk are data; the builder below is the
translation of `build_commit_index_for_repo`. -/

/-- Data of a commit as git2 exposes it: `time().seconds()` always yields a
value, author name/email, summary and message may be absent. -/
structure GCommit where
  time : Int
  author : Option String
  email : Option String
  summary : Option String
  message : Option String
deriving DecidableEq

/-- A branch as enumerated by `repo.branches`: `name()` and the backing
ref's name may be absent (non-UTF-8), `get().target()` may be unborn. -/
structure GBranch where
  name : Option String
  refname : Option String
  target : Option String
deriving DecidableEq

/-- The opened repository: local and remote branch enumerations,
`find_commit`, and the revwalk with `Sort::TIME` from a given tip. -/
structure GitRepo where
  local_branches : List GBranch
  remote_branches : List GBranch
  find_commit : String → Option GCommit
  revwalk : String → List String

/-- The `Tip` record accumulated by the branch loop. -/
structure Tip where
  kind : String
  name : String
  refname : String
  tip_time : Option Int
  tip_oid : Option String
deriving DecidableEq

/-- The remote-HEAD exclusion: short name ends with "/HEAD" or equals "HEAD". -/
def is_remote_head (name : String) : Bool := str_ends_with name "/HEAD" || name == "HEAD"

/-- One pass of the branch loop for a branch kind: skip unnamed branches,
skip remote HEAD pointers, skip branches without a backing refname, and
resolve the tip commit's time through `find_commit`. -/
def tips_for (repo : GitRepo) (kind : String) (bs : List GBranch) : List Tip :=
  bs.filterMap (fun b =>
    match b.name with
    | none => none
    | some name =>
      if kind == "remote" && is_remote_head name then none
      else
        match b.refname with
        | none => none
        | some refname =>
          some { kind := kind, name := name, refname := refname,
                 tip_time := (b.target.bind repo.find_commit).map (fun c => c.time),
                 tip_oid := b.target })

/-- The full tip enumeration: local branches then remote branches. -/
def collect_tips (repo : GitRepo) : List Tip :=
  tips_for repo "local" repo.local_branches ++ tips_for repo "remote" repo.remote_branches

/-- The sort comparator `b.tip_time.unwrap_or(0).cmp(&a.tip_time.unwrap_or(0))`:
descending by tip time with an absent time ordered as 0.  Rust's `sort_by`
is a stable sort, as is insertion sort, so they agree elementwise. -/
def tip_le (a b : Tip) : Prop := b.tip_time.getD 0 ≤ a.tip_time.getD 0

instance : DecidableRel tip_le := fun a b =>
  inferInstanceAs (Decidable (b.tip_time.getD 0 ≤ a.tip_time.getD 0))

instance : IsTotal Tip tip_le := ⟨fun a b => le_total (b.tip_time.getD 0) (a.tip_time.getD 0)⟩

instance : IsTrans Tip tip_le := ⟨fun _ _ _ hab hbc => le_trans hbc hab⟩

/-- `tips.sort_by(...); tips.truncate(branches_limit.max(1))`. -/
def retained_tips (repo : GitRepo) (branches_limit : Nat) : List Tip :=
  (List.insertionSort tip_le (collect_tips repo)).take (max branches_limit 1)

/-- The `db::CommitBranch` a retained tip is persisted as: the tip time
stays an Option, it is never replaced by 0. -/
def tip_to_branch (t : Tip) : CommitBranch :=
  { kind := t.kind, name := t.name, refname := t.refname, tip_time := t.tip_time }

/-- The `db::CommitIndexRow` built from one visited commit. -/
def commit_row_of (t : Tip) (oid : String) (c : GCommit) : CommitIndexRow :=
  { refname := t.refname, branch_kind := t.kind, branch_name := t.name, oid := oid,
    time := some c.time, author := c.author, email := c.email,
    summary := c.summary, message := c.message }

/-- The inner walk loop over the capped oid sequence: `find_commit` failure
aborts the whole build (the Rust `?`). -/
def walk_oids (repo : GitRepo) (t : Tip) : List String → Except String (List CommitIndexRow)
  | [] => .ok []
  | o :: os =>
    match repo.find_commit o with
    | none => .error ("find commit " ++ o)
    | some c =>
      match walk_oids repo t os with
      | .error e => .error e
      | .ok rest => .ok (commit_row_of t o c :: rest)

/-- One branch's walk: nothing without a tip oid, otherwise the revwalk
truncated at `commits_per_branch.max(1)` (the loop breaks at the cap). -/
def walk_branch (repo : GitRepo) (commits_per_branch : Nat) (t : Tip) :
    Except String (List CommitIndexRow) :=
  match t.tip_oid with
  | none => .ok []
  | some oid => walk_oids repo t ((repo.revwalk oid).take (max commits_per_branch 1))

/-- The outer loop over retained tips, concatenating each branch's rows. -/
def walk_all (repo : GitRepo) (commits_per_branch : Nat) :
    List Tip → Except String (List CommitIndexRow)
  | [] => .ok []
  | t :: ts =>
    match walk_branch repo commits_per_branch t with
    | .error e => .error e
    | .ok l =>
      match walk_all repo commits_per_branch ts with
      | .error e => .error e
      | .ok rest => .ok (l ++ rest)

/-- src/commits.rs `build_commit_index_for_repo`: tip selection, then the
per-branch commit walk. -/
def build_commit_index_for_repo (repo : GitRepo) (branches_limit commits_per_branch : Nat) :
    Except String (List CommitBranch × List CommitIndexRow) :=
  let tips := retained_tips repo branches_limit
  match walk_all repo commits_per_branch tips with
  | .error e => .error e
  | .ok commits => .ok (tips.map tip_to_branch, commits)

/-- The rows one branch's walk yields when every lookup succeeds (the value
of `walk_branch` whenever it is `.ok`). -/
def walk_branch_records (repo : GitRepo) (commits_per_branch : Nat) (t : Tip) :
    List CommitIndexRow :=
  match t.tip_oid with
  | none => []
  | some oid =>
    ((repo.revwalk oid).take (max commits_per_branch 1)).filterMap
      (fun o => (repo.find_commit o).map (fun c => commit_row_of t o c))

/-- The oid sequence a tip's walk visits before truncation. -/
def tip_walk (repo : GitRepo) (t : Tip) : List String :=
  match t.tip_oid with
  | none => []
  | some oid => repo.revwalk oid

/-- The time the walk's TIME sorting orders by, for a visited oid. -/
def commit_time_key (repo : GitRepo) (o : String) : Int :=
  ((repo.find_commit o).map (fun c => c.time)).getD 0

/-! ## Repository discovery (src/scan.rs `discover_git_repos`)

The directory tree under scan is a mutual tree/forest of directories (the
walker skips non-directory entries before any name test, so files need not
be modeled; symlinks are not followed and per-entry errors are swallowed).
A directory's path is its parent's path, a separator, then its name; the
walker yields an entry when its depth does not exceed the bound, records
the parent of a `.git` entry and skips its contents, and skips ignored
names entirely. -/

mutual
inductive DirTree where
  | mk (name : String) (subs : DirForest)
inductive DirForest where
  | nil
  | cons (t : DirTree) (f : DirForest)
end

/-- The trees of a forest, in listing order. -/
def DirForest.toList : DirForest → List DirTree
  | .nil => []
  | .cons t f => t :: f.toList

/-- WalkDir `max_depth`: an entry at depth d is yielded iff d is within the
bound; the root is depth 0. -/
def within_depth (maxd : Option Nat) (d : Nat) : Bool :=
  match maxd with
  | none => true
  | some m => d ≤ m

mutual
/-- The walk over one directory entry: its own path is
`parentPath ++ "/" ++ name`.  Yields the repository roots found. -/
def walk_tree (ignore : List String) (maxd : Option Nat) (depth : Nat) (parentPath : String) :
    DirTree → List String
  | .mk n subs =>
    if !within_depth maxd depth then []
    else if n == ".git" then [parentPath]
    else if ignore.contains n then []
    else walk_forest ignore maxd (depth + 1) (parentPath ++ "/" ++ n) subs
/-- The walk over a directory's children, each at the same depth and parent. -/
def walk_forest (ignore : List String) (maxd : Option Nat) (depth : Nat) (parentPath : String) :
    DirForest → List String
  | .nil => []
  | .cons t f =>
    walk_tree ignore maxd depth parentPath t ++ walk_forest ignore maxd depth parentPath f
end

/-- Non-strict code-point comparison of character lists: the plain
string-lexicographic reading of "sorted lexicographically", which the
program's PathBuf sort does not follow. -/
def lex_le : List Char → List Char → Bool
  | [], _ => true
  | _ :: _, [] => false
  | a :: as, b :: bs => if a = b then lex_le as bs else decide (a < b)

/-- Strict code-point comparison of character lists, used within one path
component. -/
def lex_lt : List Char → List Char → Bool
  | [], [] => false
  | [], _ :: _ => true
  | _ :: _, [] => false
  | a :: as, b :: bs => if a = b then lex_lt as bs else decide (a < b)

theorem lex_lt_irrefl : ∀ as : List Char, lex_lt as as = false := by
  intro as
  induction as with
  | nil => rfl
  | cons a as ih => rw [lex_lt, if_pos rfl]; exact ih

theorem lex_lt_trans : ∀ as bs cs : List Char,
    lex_lt as bs = true → lex_lt bs cs = true → lex_lt as cs = true := by
  intro as
  induction as with
  | nil =>
    intro bs cs h1 h2
    cases bs with
    | nil => cases h1
    | cons b bs =>
      cases cs with
      | nil => cases h2
      | cons c cs => rfl
  | cons a as ih =>
    intro bs cs h1 h2
    cases bs with
    | nil => cases h1
    | cons b bs =>
      cases cs with
      | nil => cases h2
      | cons c cs =>
        rw [lex_lt] at h1 h2 ⊢
        by_cases hab : a = b
        · subst hab
          rw [if_pos rfl] at h1
          by_cases hbc : a = c
          · subst hbc
            rw [if_pos rfl] at h2 ⊢
            exact ih bs cs h1 h2
          · rw [if_neg hbc] at h2 ⊢
            exact h2
        · rw [if_neg hab] at h1
          have hlt1 : a < b := of_decide_eq_true h1
          by_cases hbc : b = c
          · subst hbc
            rw [if_neg hab]
            exact h1
          · rw [if_neg hbc] at h2
            have hlt2 : b < c := of_decide_eq_true h2
            have hac : a < c := lt_trans hlt1 hlt2
            rw [if_neg (ne_of_lt hac)]
            exact decide_eq_true hac

theorem lex_lt_connex : ∀ as bs : List Char, as ≠ bs →
    lex_lt as bs = true ∨ lex_lt bs as = true := by
  intro as
  induction as with
  | nil =>
    intro bs h
    cases bs with
    | nil => exact absurd rfl h
    | cons b bs => exact Or.inl rfl
  | cons a as ih =>
    intro bs h
    cases bs with
    | nil => exact Or.inr rfl
    | cons b bs =>
      by_cases hab : a = b
      · subst hab
        rw [lex_lt, lex_lt, if_pos rfl, if_pos rfl]
        refine ih bs ?_
        intro he
        exact h (by rw [he])
      · rcases lt_or_gt_of_ne hab with hlt | hgt
        · left
          rw [lex_lt, if_neg hab]
          exact decide_eq_true hlt
        · right
          rw [lex_lt, if_neg (Ne.symm hab)]
          exact decide_eq_true hgt

/-- A component of a path, as `Path::components` yields them for the paths
at hand: the root directory, or a normal (nonempty) name.  `PathBuf`'s
derived Ord sorts the root before any normal component. -/
inductive PathComp where
  | rootDir
  | normal (cs : List Char)
deriving DecidableEq

/-- Strict order on single components: root before normal, normal names by
code point. -/
def pcomp_lt : PathComp → PathComp → Bool
  | .rootDir, .rootDir => false
  | .rootDir, .normal _ => true
  | .normal _, .rootDir => false
  | .normal a, .normal b => lex_lt a b

theorem pcomp_lt_irrefl : ∀ p, pcomp_lt p p = false := by
  intro p
  cases p with
  | rootDir => rfl
  | normal cs => exact lex_lt_irrefl cs

theorem pcomp_lt_trans : ∀ p q r,
    pcomp_lt p q = true → pcomp_lt q r = true → pcomp_lt p r = true := by
  intro p q r h1 h2
  cases p with
  | rootDir =>
    cases r with
    | rootDir =>
      cases q with
      | rootDir => cases h1
      | normal b => cases h2
    | normal c => rfl
  | normal a =>
    cases q with
    | rootDir => cases h1
    | normal b =>
      cases r with
      | rootDir => cases h2
      | normal c => exact lex_lt_trans a b c h1 h2

theorem pcomp_lt_connex : ∀ p q, p ≠ q → pcomp_lt p q = true ∨ pcomp_lt q p = true := by
  intro p q h
  cases p with
  | rootDir =>
    cases q with
    | rootDir => exact absurd rfl h
    | normal b => exact Or.inl rfl
  | normal a =>
    cases q with
    | rootDir => exact Or.inr rfl
    | normal b =>
      refine lex_lt_connex a b ?_
      intro he
      exact h (by rw [he])

/-- Lexicographic comparison of component lists: `PathBuf`'s derived Ord
over its components iterator. -/
def pcomps_le : List PathComp → List PathComp → Bool
  | [], _ => true
  | _ :: _, [] => false
  | p :: ps, q :: qs => if p = q then pcomps_le ps qs else pcomp_lt p q

theorem pcomps_le_total : ∀ ps qs, pcomps_le ps qs = true ∨ pcomps_le qs ps = true := by
  intro ps
  induction ps with
  | nil => intro qs; exact Or.inl rfl
  | cons p ps ih =>
    intro qs
    cases qs with
    | nil => exact Or.inr rfl
    | cons q qs =>
      by_cases hpq : p = q
      · subst hpq
        rw [pcomps_le, pcomps_le, if_pos rfl, if_pos rfl]
        exact ih qs
      · rcases pcomp_lt_connex p q hpq with h | h
        · left
          rw [pcomps_le, if_neg hpq]
          exact h
        · right
          rw [pcomps_le, if_neg (Ne.symm hpq)]
          exact h

theorem pcomps_le_trans : ∀ ps qs rs,
    pcomps_le ps qs = true → pcomps_le qs rs = true → pcomps_le ps rs = true := by
  intro ps
  induction ps with
  | nil => intro qs rs _ _; rfl
  | cons p ps ih =>
    intro qs rs h1 h2
    cases qs with
    | nil => rw [pcomps_le] at h1; cases h1
    | cons q qs =>
      cases rs with
      | nil => rw [pcomps_le] at h2; cases h2
      | cons r rs =>
        rw [pcomps_le] at h1 h2 ⊢
        by_cases hpq : p = q
        · subst hpq
          rw [if_pos rfl] at h1
          by_cases hqr : p = r
          · subst hqr
            rw [if_pos rfl] at h2 ⊢
            exact ih qs rs h1 h2
          · rw [if_neg hqr] at h2 ⊢
            exact h2
        · rw [if_neg hpq] at h1
          by_cases hqr : q = r
          · subst hqr
            rw [if_neg hpq]
            exact h1
          · rw [if_neg hqr] at h2
            have hpr_lt : pcomp_lt p r = true := pcomp_lt_trans p q r h1 h2
            have hpr : p ≠ r := by
              intro he
              subst he
              have := pcomp_lt_trans p q p h1 h2
              rw [pcomp_lt_irrefl] at this
              cases this
            rw [if_neg hpr]
            exact hpr_lt

/-- Split a character list at slashes (keeping empty pieces). -/
def split_slash : List Char → List (List Char)
  | [] => [[]]
  | c :: cs =>
    let r := split_slash cs
    if c = '/' then [] :: r
    else
      match r with
      | [] => [[c]]
      | l :: ls => (c :: l) :: ls

/-- The components `Path::components` yields for the discovered paths: the
root directory when the path is absolute, then the nonempty slash-separated
names (empty pieces from repeated or trailing separators are skipped). -/
def path_components (s : String) : List PathComp :=
  (if s.toList.head? = some '/' then [PathComp.rootDir] else []) ++
    ((split_slash s.toList).filter (fun l => !l.isEmpty)).map PathComp.normal

/-- The order `Vec<PathBuf>::sort` applies to the discovered paths:
component-wise comparison, not plain code-point order on the path string. -/
def path_le (a b : String) : Prop :=
  pcomps_le (path_components a) (path_components b) = true

instance : DecidableRel path_le := fun a b =>
  inferInstanceAs (Decidable (pcomps_le (path_components a) (path_components b) = true))

instance : IsTotal String path_le :=
  ⟨fun a b => pcomps_le_total (path_components a) (path_components b)⟩

instance : IsTrans String path_le :=
  ⟨fun a b c h1 h2 =>
    pcomps_le_trans (path_components a) (path_components b) (path_components c) h1 h2⟩

/-- src/scan.rs `discover_git_repos`: walk, deduplicate (the HashSet), and
sort lexicographically. -/
def discover_git_repos (ignore : List String) (maxd : Option Nat) (rootParent : String)
    (root : DirTree) : List String :=
  List.insertionSort path_le ((walk_tree ignore maxd 0 rootParent root).dedup)

/-- Positions of repository roots: `p` is the parent path of a `.git`
directory entry reachable from the scanned entry without passing through a
directory whose name is ignored, within the depth bound. -/
inductive GitRootAt (ignore : List String) (maxd : Option Nat) :
    Nat → String → DirTree → String → Prop where
  | here (depth : Nat) (parentPath : String) (subs : DirForest) :
      within_depth maxd depth = true →
      GitRootAt ignore maxd depth parentPath (.mk ".git" subs) parentPath
  | deeper (depth : Nat) (parentPath : String) (n : String) (subs : DirForest)
      (c : DirTree) (p : String) :
      within_depth maxd depth = true →
      n ≠ ".git" →
      ignore.contains n = false →
      c ∈ subs.toList →
      GitRootAt ignore maxd (depth + 1) (parentPath ++ "/" ++ n) c p →
      GitRootAt ignore maxd depth parentPath (.mk n subs) p

/-! ## README excerpt (src/scan.rs `read_readme_excerpt`)

The repository root's files are a list of name/content pairs; a file whose
content is absent exists but fails to read.  Line splitting and blank-line
detection are modeled on character lists so they evaluate in the kernel:
Rust `str::lines` splits at newlines, drops a final empty piece produced by
a trailing newline, and strips one trailing carriage return per line;
a line is blank when `trim` leaves it empty, i.e. all its characters are
whitespace. -/

/-- The files at the repository root: name, and content when readable. -/
structure RepoFs where
  files : List (String × Option String)

/-- `Path::exists` for a candidate name at the root. -/
def file_exists (fs : RepoFs) (n : String) : Bool :=
  fs.files.any (fun f => f.1 == n)

/-- `fs::read_to_string` for a candidate name at the root. -/
def read_to_string (fs : RepoFs) (n : String) : Option String :=
  (fs.files.find? (fun f => f.1 == n)).bind (fun f => f.2)

/-- Split a character list after each newline, keeping the newline at the
end of its piece and yielding no pieces for an empty input — Rust's
`split_inclusive('\n')`, which `str::lines` is built on. -/
def split_inclusive_nl : List Char → List (List Char)
  | [] => []
  | c :: cs =>
    let r := split_inclusive_nl cs
    if c = '\n' then [c] :: r
    else
      match r with
      | [] => [[c]]
      | l :: ls => (c :: l) :: ls

/-- One piece of the inclusive split, as `str::lines` maps it: strip the
trailing newline, then a carriage return directly before it.  A final piece
with no trailing newline is kept as is — a lone trailing carriage return
survives. -/
def rust_line_of (l : List Char) : List Char :=
  if l.getLast? = some '\n' then
    let l2 := l.dropLast
    if l2.getLast? = some '\r' then l2.dropLast else l2
  else l

/-- Rust `str::lines`. -/
def rust_lines (s : String) : List (List Char) :=
  (split_inclusive_nl s.toList).map rust_line_of

/-- Unicode White_Space, the set Rust's `char::is_whitespace` and therefore
`str::trim` use: TAB through CR, space, next line, no-break space, ogham
space mark, the U+2000 to U+200A spaces, line and paragraph separators,
narrow no-break space, medium mathematical space, ideographic space. -/
def rust_char_is_whitespace (c : Char) : Bool :=
  decide ((9 ≤ c.toNat ∧ c.toNat ≤ 13) ∨ c.toNat = 32 ∨ c.toNat = 133 ∨ c.toNat = 160 ∨
    c.toNat = 5760 ∨ (8192 ≤ c.toNat ∧ c.toNat ≤ 8202) ∨ c.toNat = 8232 ∨
    c.toNat = 8233 ∨ c.toNat = 8239 ∨ c.toNat = 8287 ∨ c.toNat = 12288)

/-- A line is blank when `trim` leaves nothing: every character is Unicode
whitespace. -/
def line_is_blank (l : List Char) : Bool := l.all rust_char_is_whitespace

/-- Join pieces with single spaces. -/
def join_spaces (ls : List (List Char)) : List Char :=
  (List.intersperse [' '] ls).flatten

/-- The excerpt of a readable README: first 10 non-blank lines, joined with
single spaces, truncated to 280 characters (Unicode scalar values). -/
def excerpt_of (s : String) : String :=
  String.mk ((join_spaces (((rust_lines s).filter (fun l => !line_is_blank l)).take 10)).take 280)

/-- The fixed candidate probe order. -/
def readme_candidates : List String := ["README.md", "Readme.md", "README.MD", "README"]

/-- src/scan.rs `read_readme_excerpt` composed with the caller's `.ok()`:
probe the candidates in order, read the first that exists, build the
excerpt; absent when no candidate exists or the read fails. -/
def read_readme_excerpt (fs : RepoFs) : Option String :=
  match readme_candidates.find? (fun n => file_exists fs n) with
  | none => none
  | some n => (read_to_string fs n).map excerpt_of

/-! ## Theorems -/

theorem clamp_page_idem (p : Nat) : clamp_page (clamp_page p) = clamp_page p := by
  unfold clamp_page; omega

theorem clamp_per_page_idem (pp : Nat) :
    clamp_per_page (clamp_per_page pp) = clamp_per_page pp := by
  unfold clamp_per_page; omega

theorem clamp_per_page_le (pp : Nat) : clamp_per_page pp ≤ 200 := by
  unfold clamp_per_page; omega

theorem clamp_page_zero : clamp_page 0 = clamp_page 1 := by unfold clamp_page; omega

theorem clamp_per_page_zero : clamp_per_page 0 = clamp_per_page 1 := by
  unfold clamp_per_page; omega

theorem clamp_per_page_over (k : Nat) : clamp_per_page (200 + k) = clamp_per_page 200 := by
  unfold clamp_per_page; omega

theorem repos_aux_items_le (s : Store) (query : String) (a b c d : Bool) (page pp : Nat) :
    (search_repos_filtered_aux s query a b c d page pp).items.length ≤ pp := by
  simp only [search_repos_filtered_aux, List.length_map]
  exact List.length_take_le _ _

theorem commits_aux_items_le (s : Store) (query : String) (branch : Option String)
    (a b : Bool) (page pp : Nat) :
    (search_commits_aux s query branch a b page pp).items.length ≤ pp := by
  cases branch <;> simp only [search_commits_aux] <;> exact List.length_take_le _ _

theorem list_aux_items_le (s : Store) (tag : Option String) (recent : Bool) (page pp : Nat) :
    (list_repos_aux s tag recent page pp).items.length ≤ pp := by
  simp only [list_repos_aux, List.length_map]
  exact List.length_take_le _ _

/-- C6: the filtered repository search with all four field flags false
returns exactly the same result as with all four flags true, and the paged
commit search with both field flags false behaves as if both were true —
a search never matches against zero fields. -/
theorem search_zero_flags_default_to_all (s : Store) (query : String)
    (branch : Option String) (page per_page : Nat) :
    search_repos_with_tags_paged_filtered s query false false false false page per_page =
      search_repos_with_tags_paged_filtered s query true true true true page per_page ∧
    search_commits_paged s query branch false false page per_page =
      search_commits_paged s query branch true true page per_page :=
  ⟨rfl, rfl⟩

/-- C7: every paged repository or commit search/list clamps its pagination
arguments instead of rejecting them — page to at least 1, per-page to the
closed range 1..200 — so page 0 behaves like page 1, per-page 0 like 1,
per-page above 200 like 200, and no call returns more than 200 items. -/
theorem paged_calls_clamp_pagination (s : Store) (query : String) (branch : Option String)
    (tag : Option String) (recent : Bool) (f1 f2 f3 f4 g1 g2 : Bool) (page per_page k : Nat) :
    (search_repos_with_tags_paged_filtered s query f1 f2 f3 f4 page per_page =
        search_repos_with_tags_paged_filtered s query f1 f2 f3 f4
          (clamp_page page) (clamp_per_page per_page)) ∧
    (search_repos_with_tags_paged_filtered s query f1 f2 f3 f4 0 per_page =
        search_repos_with_tags_paged_filtered s query f1 f2 f3 f4 1 per_page) ∧
    (search_repos_with_tags_paged_filtered s query f1 f2 f3 f4 page 0 =
        search_repos_with_tags_paged_filtered s query f1 f2 f3 f4 page 1) ∧
    (search_repos_with_tags_paged_filtered s query f1 f2 f3 f4 page (200 + k) =
        search_repos_with_tags_paged_filtered s query f1 f2 f3 f4 page 200) ∧
    ((search_repos_with_tags_paged_filtered s query f1 f2 f3 f4 page per_page).items.length
        ≤ 200) ∧
    (search_commits_paged s query branch g1 g2 page per_page =
        search_commits_paged s query branch g1 g2 (clamp_page page) (clamp_per_page per_page)) ∧
    (search_commits_paged s query branch g1 g2 0 per_page =
        search_commits_paged s query branch g1 g2 1 per_page) ∧
    (search_commits_paged s query branch g1 g2 page 0 =
        search_commits_paged s query branch g1 g2 page 1) ∧
    (search_commits_paged s query branch g1 g2 page (200 + k) =
        search_commits_paged s query branch g1 g2 page 200) ∧
    ((search_commits_paged s query branch g1 g2 page per_page).items.length ≤ 200) ∧
    (list_repos_with_tags_paged s tag recent page per_page =
        list_repos_with_tags_paged s tag recent (clamp_page page) (clamp_per_page per_page)) ∧
    (list_repos_with_tags_paged s tag recent 0 per_page =
        list_repos_with_tags_paged s tag recent 1 per_page) ∧
    (list_repos_with_tags_paged s tag recent page 0 =
        list_repos_with_tags_paged s tag recent page 1) ∧
    (list_repos_with_tags_paged s tag recent page (200 + k) =
        list_repos_with_tags_paged s tag recent page 200) ∧
    ((list_repos_with_tags_paged s tag recent page per_page).items.length ≤ 200) := by
  refine ⟨?_, ?_, ?_, ?_, ?_, ?_, ?_, ?_, ?_, ?_, ?_, ?_, ?_, ?_, ?_⟩
  · simp only [search_repos_with_tags_paged_filtered, clamp_page_idem, clamp_per_page_idem]
  · simp only [search_repos_with_tags_paged_filtered, clamp_page_zero]
  · simp only [search_repos_with_tags_paged_filtered, clamp_per_page_zero]
  · simp only [search_repos_with_tags_paged_filtered, clamp_per_page_over]
  · exact le_trans (repos_aux_items_le s query _ _ _ _ _ _) (clamp_per_page_le per_page)
  · simp only [search_commits_paged, clamp_page_idem, clamp_per_page_idem]
  · simp only [search_commits_paged, clamp_page_zero]
  · simp only [search_commits_paged, clamp_per_page_zero]
  · simp only [search_commits_paged, clamp_per_page_over]
  · exact le_trans (commits_aux_items_le s query branch _ _ _ _) (clamp_per_page_le per_page)
  · simp only [list_repos_with_tags_paged, clamp_page_idem, clamp_per_page_idem]
  · simp only [list_repos_with_tags_paged, clamp_page_zero]
  · simp only [list_repos_with_tags_paged, clamp_per_page_zero]
  · simp only [list_repos_with_tags_paged, clamp_per_page_over]
  · exact le_trans (list_aux_items_le s tag recent _ _) (clamp_per_page_le per_page)

/-- The row update the upsert's conflict branch performs. -/
def upsert_update (meta : RepoMeta) (r : RepoRow) : RepoRow :=
  { r with name := meta.name, default_branch := meta.default_branch,
           last_commit_ts := meta.last_commit_ts, last_scan_ts := meta.last_scan_ts,
           readme_excerpt := meta.readme_excerpt, origin_url := meta.origin_url }

/-- C10: upserting metadata for an already-indexed path overwrites the six
metadata columns of that row but keeps its id and last_access_ts (visible
from `upsert_update`, which touches neither), keeps every other repo row,
and leaves the tag table, the tag associations, and the commit index
untouched — recorded accesses and assigned tags survive a re-scan. -/
theorem upsert_existing_path_preserves_identity (s : Store) (meta : RepoMeta)
    (h : s.repos.any (fun r => r.path == meta.path) = true) :
    (upsert_repo s meta).repos =
      s.repos.map (fun r => if r.path == meta.path then upsert_update meta r else r) ∧
    (∀ r ∈ s.repos, r.path = meta.path → upsert_update meta r ∈ (upsert_repo s meta).repos) ∧
    (∀ r ∈ s.repos, r.path ≠ meta.path → r ∈ (upsert_repo s meta).repos) ∧
    (∀ r, (upsert_update meta r).id = r.id ∧
      (upsert_update meta r).last_access_ts = r.last_access_ts ∧
      (upsert_update meta r).path = r.path) ∧
    (upsert_repo s meta).tags = s.tags ∧
    (upsert_repo s meta).repoTags = s.repoTags ∧
    (upsert_repo s meta).commitBranches = s.commitBranches ∧
    (upsert_repo s meta).commits = s.commits ∧
    (upsert_repo s meta).nextRepoId = s.nextRepoId := by
  have hrepos : (upsert_repo s meta).repos =
      s.repos.map (fun r => if r.path == meta.path then upsert_update meta r else r) := by
    simp [upsert_repo, h, upsert_update]
  refine ⟨hrepos, ?_, ?_, ?_, ?_, ?_, ?_, ?_, ?_⟩
  · intro r hr hpath
    rw [hrepos]
    exact List.mem_map.mpr ⟨r, hr, by simp [hpath]⟩
  · intro r hr hpath
    rw [hrepos]
    exact List.mem_map.mpr ⟨r, hr, by simp [hpath]⟩
  · intro r
    exact ⟨rfl, rfl, rfl⟩
  · simp [upsert_repo, h]
  · simp [upsert_repo, h]
  · simp [upsert_repo, h]
  · simp [upsert_repo, h]
  · simp [upsert_repo, h]

/-- Sample store: two repos, one tag attached to both, a commit index for
each repo. -/
def sample_store : Store :=
  { repos :=
      [{ id := 1, path := "/r/alpha", name := "alpha", default_branch := some "main",
         last_commit_ts := some 10, last_scan_ts := 50, readme_excerpt := some "hello",
         origin_url := none, last_access_ts := some 99 },
       { id := 2, path := "/r/beta", name := "beta", default_branch := none,
         last_commit_ts := none, last_scan_ts := 60, readme_excerpt := none,
         origin_url := some "git@h:o/beta", last_access_ts := none }],
    tags := [{ id := 7, name := "rust" }],
    repoTags := [{ repo_id := 1, tag_id := 7 }, { repo_id := 2, tag_id := 7 }],
    commitBranches :=
      [{ repo_id := 1, kind := "local", name := "main", refname := "refs/heads/main",
         tip_time := some 10 },
       { repo_id := 2, kind := "local", name := "dev", refname := "refs/heads/dev",
         tip_time := none }],
    commits :=
      [{ repo_id := 1, refname := "refs/heads/main", branch_kind := "local",
         branch_name := "main", oid := "aa", time := some 10, author := some "a",
         email := none, summary := some "first", message := some "first body" },
       { repo_id := 2, refname := "refs/heads/dev", branch_kind := "local",
         branch_name := "dev", oid := "bb", time := some 9, author := none,
         email := none, summary := none, message := none }],
    nextRepoId := 3, nextTagId := 8 }

/-- Sample metadata targeting the already-indexed path `/r/alpha`. -/
def sample_meta : RepoMeta :=
  { path := "/r/alpha", name := "alpha2", default_branch := none,
    last_commit_ts := some 11, last_scan_ts := 70, readme_excerpt := none,
    origin_url := some "url" }

theorem upsert_existing_path_preserves_identity_witness :
    sample_store.repos.any (fun r => r.path == sample_meta.path) = true ∧
    (upsert_repo sample_store sample_meta).repoTags = sample_store.repoTags ∧
    (upsert_repo sample_store sample_meta).repos =
      sample_store.repos.map
        (fun r => if r.path == sample_meta.path then upsert_update sample_meta r else r) :=
  ⟨by decide,
   (upsert_existing_path_preserves_identity sample_store sample_meta (by decide)).2.2.2.2.2.1,
   (upsert_existing_path_preserves_identity sample_store sample_meta (by decide)).1⟩

theorem insert_branch_rows_ok (rid : Nat) : ∀ (bs : List CommitBranch) (table : List BranchRow),
    (bs.map (fun b => b.refname)).Nodup →
    (∀ br ∈ table, ¬(br.repo_id = rid ∧ br.refname ∈ bs.map (fun b => b.refname))) →
    insert_branch_rows rid bs table = .ok (table ++ bs.map (branch_row_for rid)) := by
  intro bs
  induction bs with
  | nil => intro table _ _; simp [insert_branch_rows]
  | cons b bs ih =>
    intro table hnd htab
    rw [insert_branch_rows]
    have hc : ¬ branch_conflict rid table b = true := by
      rw [branch_conflict]
      intro hcon
      obtain ⟨br, hbr, hp⟩ := List.any_eq_true.mp hcon
      rw [Bool.and_eq_true] at hp
      have h1 : br.repo_id = rid := eq_of_beq hp.1
      have h2 : br.refname = b.refname := eq_of_beq hp.2
      refine htab br hbr ⟨h1, ?_⟩
      rw [h2, List.map_cons]
      exact List.mem_cons_self _ _
    rw [if_neg hc]
    rw [List.map_cons, List.nodup_cons] at hnd
    have htab2 : ∀ br ∈ table ++ [branch_row_for rid b],
        ¬(br.repo_id = rid ∧ br.refname ∈ bs.map (fun b => b.refname)) := by
      intro br hbr
      rcases List.mem_append.mp hbr with hin | hin
      · rintro ⟨hr1, hr2⟩
        refine htab br hin ⟨hr1, ?_⟩
        rw [List.map_cons]
        exact List.mem_cons_of_mem _ hr2
      · have hbe : br = branch_row_for rid b := by simpa using hin
        subst hbe
        rintro ⟨-, hr2⟩
        exact hnd.1 hr2
    rw [ih (table ++ [branch_row_for rid b]) hnd.2 htab2]
    simp

theorem insert_branch_rows_conflict (rid : Nat) :
    ∀ (bs : List CommitBranch) (table : List BranchRow) (br : BranchRow),
      br ∈ table → br.repo_id = rid → br.refname ∈ bs.map (fun b => b.refname) →
      ∃ e, insert_branch_rows rid bs table = .error e := by
  intro bs
  induction bs with
  | nil => intro table br _ _ h; simp at h
  | cons b bs ih =>
    intro table br hmem hrid href
    rw [insert_branch_rows]
    by_cases hc : branch_conflict rid table b = true
    · rw [if_pos hc]
      exact ⟨_, rfl⟩
    · rw [if_neg hc]
      rw [List.map_cons] at href
      rcases List.mem_cons.mp href with heq | hin
      · exfalso
        apply hc
        rw [branch_conflict]
        refine List.any_eq_true.mpr ⟨br, hmem, ?_⟩
        rw [Bool.and_eq_true]
        exact ⟨beq_iff_eq.mpr hrid, beq_iff_eq.mpr heq⟩
      · exact ih (table ++ [branch_row_for rid b]) br (List.mem_append_left _ hmem) hrid hin

theorem insert_branch_rows_dup (rid : Nat) : ∀ (bs : List CommitBranch) (table : List BranchRow),
    ¬(bs.map (fun b => b.refname)).Nodup →
    ∃ e, insert_branch_rows rid bs table = .error e := by
  intro bs
  induction bs with
  | nil => intro table h; exact absurd List.nodup_nil h
  | cons b bs ih =>
    intro table h
    rw [insert_branch_rows]
    by_cases hc : branch_conflict rid table b = true
    · rw [if_pos hc]
      exact ⟨_, rfl⟩
    · rw [if_neg hc]
      rw [List.map_cons, List.nodup_cons] at h
      by_cases hdup : (bs.map (fun b => b.refname)).Nodup
      · have hin : b.refname ∈ bs.map (fun b => b.refname) := by
          by_contra hni
          exact h ⟨hni, hdup⟩
        exact insert_branch_rows_conflict rid bs (table ++ [branch_row_for rid b])
          (branch_row_for rid b) (List.mem_append_right _ (by simp)) rfl hin
      · exact ih (table ++ [branch_row_for rid b]) hdup

theorem insert_commit_rows_ok (rid : Nat) : ∀ (cs : List CommitIndexRow) (table : List CommitRow),
    (cs.map (fun c => (c.refname, c.oid))).Nodup →
    (∀ cr ∈ table, ¬(cr.repo_id = rid ∧ (cr.refname, cr.oid) ∈ cs.map (fun c => (c.refname, c.oid)))) →
    insert_commit_rows rid cs table = .ok (table ++ cs.map (commit_row_for rid)) := by
  intro cs
  induction cs with
  | nil => intro table _ _; simp [insert_commit_rows]
  | cons c cs ih =>
    intro table hnd htab
    rw [insert_commit_rows]
    have hc : ¬ commit_conflict rid table c = true := by
      rw [commit_conflict]
      intro hcon
      obtain ⟨cr, hcr, hp⟩ := List.any_eq_true.mp hcon
      rw [Bool.and_eq_true, Bool.and_eq_true] at hp
      have h1 : cr.repo_id = rid := eq_of_beq hp.1.1
      have h2 : cr.refname = c.refname := eq_of_beq hp.1.2
      have h3 : cr.oid = c.oid := eq_of_beq hp.2
      refine htab cr hcr ⟨h1, ?_⟩
      rw [h2, h3, List.map_cons]
      exact List.mem_cons_self _ _
    rw [if_neg hc]
    rw [List.map_cons, List.nodup_cons] at hnd
    have htab2 : ∀ cr ∈ table ++ [commit_row_for rid c],
        ¬(cr.repo_id = rid ∧ (cr.refname, cr.oid) ∈ cs.map (fun c => (c.refname, c.oid))) := by
      intro cr hcr
      rcases List.mem_append.mp hcr with hin | hin
      · rintro ⟨hr1, hr2⟩
        refine htab cr hin ⟨hr1, ?_⟩
        rw [List.map_cons]
        exact List.mem_cons_of_mem _ hr2
      · have hbe : cr = commit_row_for rid c := by simpa using hin
        subst hbe
        rintro ⟨-, hr2⟩
        exact hnd.1 hr2
    rw [ih (table ++ [commit_row_for rid c]) hnd.2 htab2]
    simp

theorem insert_commit_rows_conflict (rid : Nat) :
    ∀ (cs : List CommitIndexRow) (table : List CommitRow) (cr : CommitRow),
      cr ∈ table → cr.repo_id = rid →
      (cr.refname, cr.oid) ∈ cs.map (fun c => (c.refname, c.oid)) →
      ∃ e, insert_commit_rows rid cs table = .error e := by
  intro cs
  induction cs with
  | nil => intro table cr _ _ h; simp at h
  | cons c cs ih =>
    intro table cr hmem hrid href
    rw [insert_commit_rows]
    by_cases hc : commit_conflict rid table c = true
    · rw [if_pos hc]
      exact ⟨_, rfl⟩
    · rw [if_neg hc]
      rw [List.map_cons] at href
      rcases List.mem_cons.mp href with heq | hin
      · exfalso
        apply hc
        rw [commit_conflict]
        refine List.any_eq_true.mpr ⟨cr, hmem, ?_⟩
        rw [Bool.and_eq_true, Bool.and_eq_true]
        have h2 : cr.refname = c.refname := congrArg Prod.fst heq
        have h3 : cr.oid = c.oid := congrArg Prod.snd heq
        exact ⟨⟨beq_iff_eq.mpr hrid, beq_iff_eq.mpr h2⟩, beq_iff_eq.mpr h3⟩
      · exact ih (table ++ [commit_row_for rid c]) cr (List.mem_append_left _ hmem) hrid hin

theorem insert_commit_rows_dup (rid : Nat) : ∀ (cs : List CommitIndexRow) (table : List CommitRow),
    ¬(cs.map (fun c => (c.refname, c.oid))).Nodup →
    ∃ e, insert_commit_rows rid cs table = .error e := by
  intro cs
  induction cs with
  | nil => intro table h; exact absurd List.nodup_nil h
  | cons c cs ih =>
    intro table h
    rw [insert_commit_rows]
    by_cases hc : commit_conflict rid table c = true
    · rw [if_pos hc]
      exact ⟨_, rfl⟩
    · rw [if_neg hc]
      rw [List.map_cons, List.nodup_cons] at h
      by_cases hdup : (cs.map (fun c => (c.refname, c.oid))).Nodup
      · have hin : (c.refname, c.oid) ∈ cs.map (fun c => (c.refname, c.oid)) := by
          by_contra hni
          exact h ⟨hni, hdup⟩
        exact insert_commit_rows_conflict rid cs (table ++ [commit_row_for rid c])
          (commit_row_for rid c) (List.mem_append_right _ (by simp)) rfl hin
      · exact ih (table ++ [commit_row_for rid c]) hdup

theorem replace_filter_no_rid_branches (s : Store) (rid : Nat) :
    ∀ br ∈ s.commitBranches.filter (fun b => !(b.repo_id == rid)), ¬ br.repo_id = rid := by
  intro br hbr he
  have := (List.mem_filter.mp hbr).2
  rw [he] at this
  simp at this

theorem replace_filter_no_rid_commits (s : Store) (rid : Nat) :
    ∀ cr ∈ s.commits.filter (fun c => !(c.repo_id == rid)), ¬ cr.repo_id = rid := by
  intro cr hcr he
  have := (List.mem_filter.mp hcr).2
  rw [he] at this
  simp at this

/-- C1: replacing a repository's commit index is all-or-nothing.  When the
path is not indexed the call fails with the not-found error before the
transaction starts; when an insert violates one of the schema's UNIQUE
constraints — a repeated refname among the branch tips, or a repeated
(refname, oid) among the commit rows — the transaction rolls back and the
call returns the error; in both failure cases the pure model yields no new
state, so the store is unchanged.  On success the stored branch and commit
rows of that repository are exactly the given lists, rows of every other
repository are untouched, and the repo, tag and association tables are
unchanged. -/
theorem replace_commit_index_all_or_nothing (s : Store) (repo_path : String)
    (branches : List CommitBranch) (rows : List CommitIndexRow) :
    (repo_id_by_path s repo_path = none →
      replace_commit_index_for_repo s repo_path branches rows =
        .error ("repo not indexed: " ++ repo_path)) ∧
    (∀ rid, repo_id_by_path s repo_path = some rid →
      (branches.map (fun b => b.refname)).Nodup →
      (rows.map (fun c => (c.refname, c.oid))).Nodup →
      ∃ s2, replace_commit_index_for_repo s repo_path branches rows = .ok s2 ∧
        s2.commitBranches.filter (fun b => b.repo_id == rid) =
          branches.map (branch_row_for rid) ∧
        s2.commits.filter (fun c => c.repo_id == rid) = rows.map (commit_row_for rid) ∧
        s2.commitBranches.filter (fun b => !(b.repo_id == rid)) =
          s.commitBranches.filter (fun b => !(b.repo_id == rid)) ∧
        s2.commits.filter (fun c => !(c.repo_id == rid)) =
          s.commits.filter (fun c => !(c.repo_id == rid)) ∧
        s2.repos = s.repos ∧ s2.tags = s.tags ∧ s2.repoTags = s.repoTags) ∧
    (∀ rid, repo_id_by_path s repo_path = some rid →
      ¬((branches.map (fun b => b.refname)).Nodup ∧
        (rows.map (fun c => (c.refname, c.oid))).Nodup) →
      ∃ e, replace_commit_index_for_repo s repo_path branches rows = .error e) := by
  refine ⟨?_, ?_, ?_⟩
  · intro h
    simp [replace_commit_index_for_repo, h]
  · intro rid h hnb hnc
    have htb : insert_branch_rows rid branches
        (s.commitBranches.filter (fun b => !(b.repo_id == rid))) =
        .ok (s.commitBranches.filter (fun b => !(b.repo_id == rid)) ++
          branches.map (branch_row_for rid)) := by
      refine insert_branch_rows_ok rid branches _ hnb ?_
      intro br hbr
      rintro ⟨h1, -⟩
      exact replace_filter_no_rid_branches s rid br hbr h1
    have htc : insert_commit_rows rid rows
        (s.commits.filter (fun c => !(c.repo_id == rid))) =
        .ok (s.commits.filter (fun c => !(c.repo_id == rid)) ++
          rows.map (commit_row_for rid)) := by
      refine insert_commit_rows_ok rid rows _ hnc ?_
      intro cr hcr
      rintro ⟨h1, -⟩
      exact replace_filter_no_rid_commits s rid cr hcr h1
    refine ⟨{ s with
        commitBranches := s.commitBranches.filter (fun b => !(b.repo_id == rid)) ++
          branches.map (branch_row_for rid),
        commits := s.commits.filter (fun c => !(c.repo_id == rid)) ++
          rows.map (commit_row_for rid) },
      by simp only [replace_commit_index_for_repo, h, htb, htc],
      ?_, ?_, ?_, ?_, rfl, rfl, rfl⟩
    · simp [List.filter_append, List.filter_filter, List.filter_map, Function.comp_def,
        branch_row_for]
    · simp [List.filter_append, List.filter_filter, List.filter_map, Function.comp_def,
        commit_row_for]
    · simp [List.filter_append, List.filter_filter, List.filter_map, Function.comp_def,
        branch_row_for]
    · simp [List.filter_append, List.filter_filter, List.filter_map, Function.comp_def,
        commit_row_for]
  · intro rid h hnot
    by_cases hnb : (branches.map (fun b => b.refname)).Nodup
    · have hnc : ¬(rows.map (fun c => (c.refname, c.oid))).Nodup := fun hc => hnot ⟨hnb, hc⟩
      have htb : insert_branch_rows rid branches
          (s.commitBranches.filter (fun b => !(b.repo_id == rid))) =
          .ok (s.commitBranches.filter (fun b => !(b.repo_id == rid)) ++
            branches.map (branch_row_for rid)) := by
        refine insert_branch_rows_ok rid branches _ hnb ?_
        intro br hbr
        rintro ⟨h1, -⟩
        exact replace_filter_no_rid_branches s rid br hbr h1
      obtain ⟨e, he⟩ := insert_commit_rows_dup rid rows
        (s.commits.filter (fun c => !(c.repo_id == rid))) hnc
      exact ⟨e, by simp only [replace_commit_index_for_repo, h, htb, he]⟩
    · obtain ⟨e, he⟩ := insert_branch_rows_dup rid branches
        (s.commitBranches.filter (fun b => !(b.repo_id == rid))) hnb
      exact ⟨e, by simp only [replace_commit_index_for_repo, h, he]⟩

/-- Branch-tip list used by the C1 witness. -/
def sample_new_tips : List CommitBranch :=
  [{ kind := "local", name := "b", refname := "refs/heads/b", tip_time := some 3 }]

theorem replace_commit_index_all_or_nothing_witness :
    repo_id_by_path sample_store "/r/alpha" = some 1 ∧
    (sample_new_tips.map (fun b => b.refname)).Nodup ∧
    (([] : List CommitIndexRow).map (fun c => (c.refname, c.oid))).Nodup ∧
    (replace_commit_index_for_repo sample_store "/r/alpha" sample_new_tips
        []).toOption.map (fun s2 => s2.commitBranches.filter (fun b => b.repo_id == 1)) =
      some [{ repo_id := 1, kind := "local", name := "b", refname := "refs/heads/b",
              tip_time := some 3 }] ∧
    (replace_commit_index_for_repo sample_store "/r/alpha"
        (sample_new_tips ++ sample_new_tips) []).toOption = none := by
  refine ⟨rfl, by decide, by decide, ?_, ?_⟩
  · obtain ⟨s2, hok, hb, -⟩ :=
      (replace_commit_index_all_or_nothing sample_store "/r/alpha" sample_new_tips
        []).2.1 1 rfl (by decide) (by decide)
    rw [hok]
    simp only [Except.toOption, Option.map_some']
    rw [hb]
    rfl
  · obtain ⟨e, he⟩ :=
      (replace_commit_index_all_or_nothing sample_store "/r/alpha"
        (sample_new_tips ++ sample_new_tips) []).2.2 1 rfl (by decide)
    rw [he]
    rfl

theorem countP_cases {α : Type} (f g h : α → Bool)
    (hpt : ∀ x, (if f x then 1 else 0) = ((if g x then 1 else 0) + (if h x then 1 else 0) : Nat)) :
    ∀ l : List α, l.countP f = l.countP g + l.countP h := by
  intro l
  induction l with
  | nil => simp
  | cons a l ih =>
    have := hpt a
    simp only [List.countP_cons, ih]
    omega

theorem delete_repo_by_path_repos (s : Store) (p : String) :
    (delete_repo_by_path s p).1.repos = s.repos.filter (fun r => !(r.path == p)) ∧
    (delete_repo_by_path s p).2 = s.repos.countP (fun r => r.path == p) := by
  constructor
  · rfl
  · simp [delete_repo_by_path, List.countP_eq_length_filter]

theorem prune_loop_spec (keep : List String) :
    ∀ (ps : List String) (s : Store),
      (prune_loop keep ps s).1.repos =
        s.repos.filter (fun r => !(ps.contains r.path && !keep.contains r.path)) ∧
      (prune_loop keep ps s).2 =
        s.repos.countP (fun r => ps.contains r.path && !keep.contains r.path) := by
  intro ps
  induction ps with
  | nil => intro s; simp [prune_loop]
  | cons p ps ih =>
    intro s
    by_cases hk : p ∈ keep
    · have hkc : keep.contains p = true := by simpa using hk
      constructor
      · rw [prune_loop, if_pos hkc, (ih s).1]
        refine List.filter_congr (fun r _ => ?_)
        by_cases hx : r.path = p <;> by_cases hps : r.path ∈ ps <;>
          by_cases hkx : r.path ∈ keep <;> simp_all [List.contains_cons]
      · rw [prune_loop, if_pos hkc, (ih s).2,
          List.countP_eq_length_filter, List.countP_eq_length_filter]
        congr 1
        refine List.filter_congr (fun r _ => ?_)
        by_cases hx : r.path = p <;> by_cases hps : r.path ∈ ps <;>
          by_cases hkx : r.path ∈ keep <;> simp_all [List.contains_cons]
    · have hkc : keep.contains p = false := by simpa using hk
      have hd := delete_repo_by_path_repos s p
      have hrec := ih (delete_repo_by_path s p).1
      constructor
      · rw [prune_loop, if_neg (by simpa using hk), hrec.1, hd.1, List.filter_filter]
        refine List.filter_congr (fun r _ => ?_)
        by_cases hx : r.path = p <;> by_cases hps : r.path ∈ ps <;>
          by_cases hkx : r.path ∈ keep <;> simp_all [List.contains_cons]
      · have hstep : (prune_loop keep (p :: ps) s).2 =
            (delete_repo_by_path s p).2 + (prune_loop keep ps (delete_repo_by_path s p).1).2 := by
          rw [prune_loop, if_neg (by simpa using hk)]
        rw [hstep, hd.2, hrec.2, hd.1, List.countP_filter]
        refine (countP_cases _ _ _ (fun r => ?_) s.repos).symm
        by_cases hx : r.path = p <;> by_cases hps : r.path ∈ ps <;>
          by_cases hkx : r.path ∈ keep <;> simp_all [List.contains_cons]

/-- The predicate `prune_under_root` actually deletes by: the stored path
matches the SQLite LIKE pattern built from the root (so percent and
underscore inside the root act as wildcards and ASCII case is folded), and
the path is not in the keep set. -/
def prune_deletes (root : String) (keep : List String) (r : RepoRow) : Bool :=
  sqlLike (prune_like_pattern root) r.path && !keep.contains r.path

/-- Scenario store for the pruning claims: rows `/root/a/x`, `/root/a/y`,
`/root/b/z`. -/
def scenario_store : Store :=
  { repos :=
      [{ id := 1, path := "/root/a/x", name := "x", default_branch := none,
         last_commit_ts := none, last_scan_ts := 1, readme_excerpt := none,
         origin_url := none, last_access_ts := none },
       { id := 2, path := "/root/a/y", name := "y", default_branch := none,
         last_commit_ts := none, last_scan_ts := 1, readme_excerpt := none,
         origin_url := none, last_access_ts := none },
       { id := 3, path := "/root/b/z", name := "z", default_branch := none,
         last_commit_ts := none, last_scan_ts := 1, readme_excerpt := none,
         origin_url := none, last_access_ts := none }],
    tags := [], repoTags := [], commitBranches := [], commits := [],
    nextRepoId := 4, nextTagId := 1 }

/-- C4 (amended): `prune_under_root` deletes exactly the repository rows
whose path matches the SQLite LIKE pattern `root` + separator + percent —
not the plain begins-with-the-root rule, since percent/underscore in
the root act as wildcards and ASCII letters compare case-insensitively —
and that are not in the keep set; it returns the number of rows deleted and
leaves every other repository row untouched.  The concrete scenario of the
claim behaves as stated: with rows /root/a/x, /root/a/y, /root/b/z, root
/root/a and keep set containing /root/a/x, only /root/a/y is deleted. -/
theorem prune_under_root_deletes_like_matches (s : Store) (root : String)
    (keep : List String) :
    (prune_under_root s root keep).1.repos = s.repos.filter (fun r => !prune_deletes root keep r) ∧
    (prune_under_root s root keep).2 = s.repos.countP (prune_deletes root keep) ∧
    (∀ r ∈ s.repos, prune_deletes root keep r = false →
      r ∈ (prune_under_root s root keep).1.repos) ∧
    (∀ r ∈ s.repos, r.path ∈ keep → r ∈ (prune_under_root s root keep).1.repos) ∧
    ((prune_under_root scenario_store "/root/a" ["/root/a/x"]).1.repos.map
        (fun r => r.path)) = ["/root/a/x", "/root/b/z"] ∧
    (prune_under_root scenario_store "/root/a" ["/root/a/x"]).2 = 1 := by
  have hsel : ∀ r ∈ s.repos,
      (((s.repos.filter (fun r => sqlLike (prune_like_pattern root) r.path)).map
          (fun r => r.path)).contains r.path) = sqlLike (prune_like_pattern root) r.path := by
    intro r hr
    by_cases hm : sqlLike (prune_like_pattern root) r.path = true
    · simp only [hm]
      have : r.path ∈ (s.repos.filter
          (fun r => sqlLike (prune_like_pattern root) r.path)).map (fun r => r.path) :=
        List.mem_map_of_mem _ (List.mem_filter.mpr ⟨hr, hm⟩)
      simpa using this
    · have hm2 : sqlLike (prune_like_pattern root) r.path = false := by
        cases hv : sqlLike (prune_like_pattern root) r.path
        · rfl
        · exact absurd hv hm
      simp only [hm2]
      have : r.path ∉ (s.repos.filter
          (fun r => sqlLike (prune_like_pattern root) r.path)).map (fun r => r.path) := by
        intro hmem
        obtain ⟨r2, hr2, hpath⟩ := List.mem_map.mp hmem
        have := (List.mem_filter.mp hr2).2
        rw [hpath] at this
        rw [this] at hm2
        cases hm2
      simpa using this
  have hspec := prune_loop_spec keep
    ((s.repos.filter (fun r => sqlLike (prune_like_pattern root) r.path)).map (fun r => r.path)) s
  have hrepos : (prune_under_root s root keep).1.repos =
      s.repos.filter (fun r => !prune_deletes root keep r) := by
    show (prune_orphan_tags _).repos = _
    rw [prune_orphan_tags]
    simp only [prune_under_root]
    rw [hspec.1]
    exact List.filter_congr (fun r hr => by rw [prune_deletes, hsel r hr])
  have hcount : (prune_under_root s root keep).2 = s.repos.countP (prune_deletes root keep) := by
    simp only [prune_under_root]
    rw [hspec.2, List.countP_eq_length_filter, List.countP_eq_length_filter]
    congr 1
    exact List.filter_congr (fun r hr => by rw [prune_deletes, hsel r hr])
  refine ⟨hrepos, hcount, ?_, ?_, by decide, by decide⟩
  · intro r hr hnd
    rw [hrepos]
    exact List.mem_filter.mpr ⟨hr, by rw [hnd]; rfl⟩
  · intro r hr hkeep
    rw [hrepos]
    refine List.mem_filter.mpr ⟨hr, ?_⟩
    simp only [prune_deletes, Bool.not_eq_true', Bool.and_eq_false_iff]
    simp [hkeep]

/-- Store with the single row `/aXb/y`, used to refute the plain begins-with
reading of `prune_under_root`. -/
def underscore_store : Store :=
  { repos :=
      [{ id := 1, path := "/aXb/y", name := "y", default_branch := none,
         last_commit_ts := none, last_scan_ts := 1, readme_excerpt := none,
         origin_url := none, last_access_ts := none }],
    tags := [], repoTags := [], commitBranches := [], commits := [],
    nextRepoId := 2, nextTagId := 1 }

/-- C4 counterexample: with root `/a_b` (the underscore is an ordinary path
character, but a LIKE wildcard) and an empty keep set, the row `/aXb/y` —
whose path does not begin with `/a_b/` — is deleted and counted, while the
claim, which deletes only paths beginning with the root plus a separator,
predicts zero deletions and an untouched row. -/
theorem prune_under_root_plain_root_claim_false :
    (prune_under_root underscore_store "/a_b" []).2 = 1 ∧
    (prune_under_root underscore_store "/a_b" []).1.repos = [] ∧
    str_starts_with "/aXb/y" "/a_b/" = false := by
  refine ⟨?_, ?_, ?_⟩ <;> decide

theorem prune_under_root_deletes_like_matches_witness :
    (prune_under_root scenario_store "/root/a" ["/root/a/x"]).2 = 1 ∧
    ({ id := 1, path := "/aXb/y", name := "y", default_branch := none,
       last_commit_ts := none, last_scan_ts := 1, readme_excerpt := none,
       origin_url := none, last_access_ts := none } : RepoRow) ∈
      (prune_under_root underscore_store "/q" ["/aXb/y"]).1.repos :=
  ⟨(prune_under_root_deletes_like_matches scenario_store "/root/a" ["/root/a/x"]).2.2.2.2.2,
   (prune_under_root_deletes_like_matches underscore_store "/q" ["/aXb/y"]).2.2.2.1
     _ (by decide) (by decide)⟩

/-- C5: removing a tag from a repository deletes the association and then
deletes the tag row itself exactly when no associations to it remain (the
if-characterization below); when the association existed exactly once (the
composite primary key guarantees at most once), the tag's association count
drops by exactly one; and removing a tag from an unindexed path fails with
the not-found error. -/
theorem remove_tag_deletes_assoc_and_orphan (s : Store) (repo_path tag : String) :
    (repo_id_by_path s repo_path = none →
      remove_tag_from_repo s repo_path tag = .error ("repo not indexed: " ++ repo_path)) ∧
    (∀ rid tid, repo_id_by_path s repo_path = some rid →
      (s.tags.find? (fun t => t.name == tag)).map (fun t => t.id) = some tid →
      ∃ s2, remove_tag_from_repo s repo_path tag = .ok s2 ∧
        s2.repoTags = s.repoTags.filter (fun rt => !(rt.repo_id == rid && rt.tag_id == tid)) ∧
        (s2.tags =
          if s2.repoTags.any (fun rt => rt.tag_id == tid) then s.tags
          else s.tags.filter (fun t => !(t.id == tid))) ∧
        (s.repoTags.countP (fun rt => rt.repo_id == rid && rt.tag_id == tid) = 1 →
          s2.repoTags.countP (fun rt => rt.tag_id == tid) =
            s.repoTags.countP (fun rt => rt.tag_id == tid) - 1) ∧
        s2.repos = s.repos ∧ s2.commitBranches = s.commitBranches ∧ s2.commits = s.commits) := by
  constructor
  · intro h
    simp [remove_tag_from_repo, h]
  · intro rid tid h1 h2
    have hsplit : s.repoTags.countP (fun rt => rt.tag_id == tid) =
        s.repoTags.countP (fun rt => rt.repo_id == rid && rt.tag_id == tid) +
          s.repoTags.countP (fun rt => (rt.tag_id == tid) &&
            !(rt.repo_id == rid && rt.tag_id == tid)) := by
      refine countP_cases _ _ _ (fun rt => ?_) s.repoTags
      cases ha : (rt.repo_id == rid) <;> cases hb : (rt.tag_id == tid) <;> simp [ha, hb]
    have hfiltc : (s.repoTags.filter
          (fun rt => !(rt.repo_id == rid && rt.tag_id == tid))).countP
            (fun rt => rt.tag_id == tid) =
        s.repoTags.countP (fun rt => (rt.tag_id == tid) &&
          !(rt.repo_id == rid && rt.tag_id == tid)) :=
      List.countP_filter _ _ _
    by_cases hany : (s.repoTags.filter
        (fun rt => !(rt.repo_id == rid && rt.tag_id == tid))).any
          (fun rt => rt.tag_id == tid) = true
    · refine ⟨{ s with repoTags := s.repoTags.filter (fun rt => !(rt.repo_id == rid && rt.tag_id == tid)) }, ?_, rfl, ?_, ?_, rfl, rfl, rfl⟩
      · simp only [remove_tag_from_repo, h1, h2]
        rw [if_pos hany]
      · exact (if_pos hany).symm
      · intro hone
        show (s.repoTags.filter (fun rt => !(rt.repo_id == rid && rt.tag_id == tid))).countP
          (fun rt => rt.tag_id == tid) = _
        rw [hfiltc]
        omega
    · have hany2 : ¬((s.repoTags.filter
          (fun rt => !(rt.repo_id == rid && rt.tag_id == tid))).any
            (fun rt => rt.tag_id == tid) = true) := hany
      refine ⟨{ s with repoTags := s.repoTags.filter (fun rt => !(rt.repo_id == rid && rt.tag_id == tid)), tags := s.tags.filter (fun t => !(t.id == tid)) }, ?_, rfl, ?_, ?_, rfl, rfl, rfl⟩
      · simp only [remove_tag_from_repo, h1, h2]
        rw [if_neg hany2]
      · exact (if_neg hany2).symm
      · intro hone
        show (s.repoTags.filter (fun rt => !(rt.repo_id == rid && rt.tag_id == tid))).countP
          (fun rt => rt.tag_id == tid) = _
        rw [hfiltc]
        omega

theorem remove_tag_deletes_assoc_and_orphan_witness :
    repo_id_by_path sample_store "/r/alpha" = some 1 ∧
    (sample_store.tags.find? (fun t => t.name == "rust")).map (fun t => t.id) = some 7 ∧
    (remove_tag_from_repo sample_store "/r/alpha" "rust").toOption.map
        (fun s2 => (s2.repoTags, s2.tags)) =
      some ([{ repo_id := 2, tag_id := 7 }], [{ id := 7, name := "rust" }]) := by
  refine ⟨rfl, rfl, ?_⟩
  obtain ⟨s2, hok, hrt, htags, -⟩ :=
    (remove_tag_deletes_assoc_and_orphan sample_store "/r/alpha" "rust").2 1 7 rfl rfl
  rw [hok]
  simp only [Except.toOption, Option.map_some']
  rw [hrt] at htags ⊢
  rw [htags]
  rfl

/-- C8: the README excerpt probes README.md, Readme.md, README.MD, README
in that fixed order and uses the first existing candidate; the excerpt is
the first 10 non-blank lines of that file joined with single spaces and
truncated to at most 280 Unicode scalar values; and it is absent when no
candidate exists or the chosen file fails to read. -/
theorem readme_excerpt_probe_order_and_truncation (fs : RepoFs) :
    (readme_candidates.find? (fun n => file_exists fs n) = none →
      read_readme_excerpt fs = none) ∧
    (∀ c, readme_candidates.find? (fun n => file_exists fs n) = some c →
      read_readme_excerpt fs = (read_to_string fs c).map excerpt_of) ∧
    (file_exists fs "README.md" = true →
      read_readme_excerpt fs = (read_to_string fs "README.md").map excerpt_of) ∧
    (file_exists fs "README.md" = false → file_exists fs "Readme.md" = false →
      file_exists fs "README.MD" = false → file_exists fs "README" = true →
      read_readme_excerpt fs = (read_to_string fs "README").map excerpt_of) ∧
    (∀ e, read_readme_excerpt fs = some e → e.length ≤ 280) ∧
    (∀ str, excerpt_of str = String.mk
      ((join_spaces (((rust_lines str).filter (fun l => !line_is_blank l)).take 10)).take 280)) := by
  have hgen : ∀ c, readme_candidates.find? (fun n => file_exists fs n) = some c →
      read_readme_excerpt fs = (read_to_string fs c).map excerpt_of := by
    intro c h
    simp [read_readme_excerpt, h]
  refine ⟨?_, hgen, ?_, ?_, ?_, fun _ => rfl⟩
  · intro h
    simp [read_readme_excerpt, h]
  · intro h
    refine hgen "README.md" ?_
    rw [readme_candidates]
    exact List.find?_cons_of_pos _ h
  · intro h1 h2 h3 h4
    refine hgen "README" ?_
    rw [readme_candidates]
    rw [List.find?_cons_of_neg _ (by simp [h1]), List.find?_cons_of_neg _ (by simp [h2]),
      List.find?_cons_of_neg _ (by simp [h3])]
    exact List.find?_cons_of_pos _ h4
  · intro e he
    rw [read_readme_excerpt] at he
    cases hf : readme_candidates.find? (fun n => file_exists fs n) with
    | none => rw [hf] at he; cases he
    | some c =>
      rw [hf] at he
      obtain ⟨str, -, hstr⟩ := Option.map_eq_some'.mp he
      have hlen : e.length =
          ((join_spaces (((rust_lines str).filter (fun l => !line_is_blank l)).take 10)).take
            280).length := by
        rw [← hstr]
        rfl
      rw [hlen]
      exact List.length_take_le _ _

/-- Root files used by the README witness: only a plain `README` exists. -/
def readme_sample_fs : RepoFs :=
  { files := [("notes.txt", some "x"), ("README", some "# Title\r\n\none\n")] }

theorem readme_excerpt_probe_order_and_truncation_witness :
    file_exists readme_sample_fs "README.md" = false ∧
    file_exists readme_sample_fs "Readme.md" = false ∧
    file_exists readme_sample_fs "README.MD" = false ∧
    file_exists readme_sample_fs "README" = true ∧
    read_readme_excerpt readme_sample_fs = some "# Title one" := by
  refine ⟨rfl, rfl, rfl, rfl, ?_⟩
  rw [(readme_excerpt_probe_order_and_truncation readme_sample_fs).2.2.2.1 rfl rfl rfl rfl]
  decide

mutual
theorem mem_walk_tree (ignore : List String) (maxd : Option Nat) :
    ∀ (d : Nat) (pp : String) (t : DirTree) (q : String),
      q ∈ walk_tree ignore maxd d pp t ↔ GitRootAt ignore maxd d pp t q
  | d, pp, .mk n subs, q => by
    rw [walk_tree]
    by_cases hw : within_depth maxd d = true
    · rw [if_neg (by simp [hw])]
      by_cases hgit : n = ".git"
      · subst hgit
        rw [if_pos (by simp)]
        constructor
        · intro hq
          have : q = pp := by simpa using hq
          subst this
          exact GitRootAt.here d q subs hw
        · intro hq
          cases hq with
          | here _ _ _ _ => simp
          | deeper _ _ _ _ _ _ _ hne _ _ => exact absurd rfl hne
      · rw [if_neg (by simp [hgit])]
        by_cases hig : ignore.contains n = true
        · rw [if_pos hig]
          constructor
          · intro hq
            cases hq
          · intro hq
            cases hq with
            | here _ _ _ _ => exact absurd rfl hgit
            | deeper _ _ _ _ _ _ _ _ hni _ => rw [hig] at hni; cases hni
        · rw [if_neg hig]
          have hig2 : ignore.contains n = false := by
            cases hv : ignore.contains n
            · rfl
            · exact absurd hv hig
          rw [mem_walk_forest ignore maxd (d + 1) (pp ++ "/" ++ n) subs q]
          constructor
          · intro hq
            obtain ⟨c, hc, hroot⟩ := hq
            exact GitRootAt.deeper d pp n subs c q hw hgit hig2 hc hroot
          · intro hq
            cases hq with
            | here _ _ _ _ => exact absurd rfl hgit
            | deeper _ _ _ _ c _ _ _ _ hc hroot => exact ⟨c, hc, hroot⟩
    · rw [if_pos (by simp [hw])]
      constructor
      · intro hq
        cases hq
      · intro hq
        cases hq with
        | here _ _ _ hww => exact absurd hww hw
        | deeper _ _ _ _ _ _ hww _ _ _ => exact absurd hww hw
theorem mem_walk_forest (ignore : List String) (maxd : Option Nat) :
    ∀ (d : Nat) (pp : String) (f : DirForest) (q : String),
      q ∈ walk_forest ignore maxd d pp f ↔
        ∃ c ∈ DirForest.toList f, GitRootAt ignore maxd d pp c q
  | d, pp, .nil, q => by
    rw [walk_forest]
    simp [DirForest.toList]
  | d, pp, .cons t f, q => by
    rw [walk_forest, List.mem_append, mem_walk_tree ignore maxd d pp t q,
      mem_walk_forest ignore maxd d pp f q]
    constructor
    · intro hq
      cases hq with
      | inl h => exact ⟨t, by simp [DirForest.toList], h⟩
      | inr h =>
        obtain ⟨c, hc, hroot⟩ := h
        exact ⟨c, by simp [DirForest.toList, hc], hroot⟩
    · intro hq
      obtain ⟨c, hc, hroot⟩ := hq
      rw [DirForest.toList] at hc
      cases hc with
      | head => exact Or.inl hroot
      | tail _ hc2 => exact Or.inr ⟨c, hc2, hroot⟩
end

/-- The scenario tree of the discovery claim: /root/a/.git, /root/b/.git,
/root/b/vendor/c/.git. -/
def scan_example_tree : DirTree :=
  .mk "root"
    (.cons (.mk "a" (.cons (.mk ".git" .nil) .nil))
      (.cons
        (.mk "b"
          (.cons (.mk ".git" .nil)
            (.cons (.mk "vendor" (.cons (.mk "c" (.cons (.mk ".git" .nil) .nil)) .nil)) .nil)))
        .nil))

/-- C9 (amended): discovery returns a duplicate-free list sorted in the
component-wise path order `Vec<PathBuf>::sort` produces — root first, then
slash-separated components compared code-point-lexicographically — which is
not plain code-point order on the path string; its members are exactly the
parents of `.git` directory entries reachable within the depth bound
without passing through an ignored directory name (so nothing beneath an
ignored directory is ever returned); the scenario with /root/a/.git,
/root/b/.git, /root/b/vendor/c/.git and ignore set containing vendor
yields exactly /root/a and /root/b. -/
theorem discover_git_repos_sorted_unique_complete (ignore : List String) (maxd : Option Nat)
    (rootParent : String) (t : DirTree) :
    List.Sorted path_le (discover_git_repos ignore maxd rootParent t) ∧
    (discover_git_repos ignore maxd rootParent t).Nodup ∧
    (∀ q, q ∈ discover_git_repos ignore maxd rootParent t ↔
      GitRootAt ignore maxd 0 rootParent t q) ∧
    discover_git_repos ["vendor"] none "" scan_example_tree = ["/root/a", "/root/b"] := by
  refine ⟨?_, ?_, ?_, by decide⟩
  · exact List.sorted_insertionSort _ _
  · rw [discover_git_repos]
    exact (List.perm_insertionSort _ _).nodup_iff.mpr (List.nodup_dedup _)
  · intro q
    rw [discover_git_repos, List.mem_insertionSort, List.mem_dedup]
    exact mem_walk_tree ignore maxd 0 rootParent t q

theorem tips_for_mem (repo : GitRepo) (kind : String) (bs : List GBranch) (t : Tip)
    (ht : t ∈ tips_for repo kind bs) :
    t.kind = kind ∧ ((kind == "remote" && is_remote_head t.name) = false) ∧
    ∃ b ∈ bs, b.name = some t.name ∧ b.refname = some t.refname ∧
      t.tip_time = (b.target.bind repo.find_commit).map (fun c => c.time) ∧
      t.tip_oid = b.target := by
  simp only [tips_for, List.mem_filterMap] at ht
  obtain ⟨b, hb, hf⟩ := ht
  cases hname : b.name with
  | none => simp only [hname] at hf; cases hf
  | some name =>
    simp only [hname] at hf
    by_cases hguard : (kind == "remote" && is_remote_head name) = true
    · rw [if_pos hguard] at hf
      cases hf
    · rw [if_neg hguard] at hf
      cases hrefname : b.refname with
      | none => simp only [hrefname] at hf; cases hf
      | some rn =>
        simp only [hrefname] at hf
        have hrec := Option.some.inj hf
        subst hrec
        refine ⟨rfl, ?_, b, hb, ?_, ?_, rfl, rfl⟩
        · simpa using hguard
        · rw [hname]
        · rw [hrefname]

theorem build_ok_parts (repo : GitRepo) (bl cpb : Nat) (bs : List CommitBranch)
    (cs : List CommitIndexRow)
    (hok : build_commit_index_for_repo repo bl cpb = .ok (bs, cs)) :
    bs = (retained_tips repo bl).map tip_to_branch ∧
    walk_all repo cpb (retained_tips repo bl) = .ok cs := by
  simp only [build_commit_index_for_repo] at hok
  cases hw : walk_all repo cpb (retained_tips repo bl) with
  | error e => rw [hw] at hok; cases hok
  | ok l =>
    rw [hw] at hok
    have := Except.ok.inj hok
    have h1 : (retained_tips repo bl).map tip_to_branch = bs := congrArg Prod.fst this
    have h2 : l = cs := congrArg Prod.snd this
    exact ⟨h1.symm, congrArg Except.ok h2⟩

theorem walk_oids_ok (repo : GitRepo) (t : Tip) :
    ∀ (os : List String) (l : List CommitIndexRow), walk_oids repo t os = .ok l →
      l = os.filterMap (fun o => (repo.find_commit o).map (fun c => commit_row_of t o c)) := by
  intro os
  induction os with
  | nil =>
    intro l h
    rw [walk_oids] at h
    have := Except.ok.inj h
    rw [← this]
    rfl
  | cons o os ih =>
    intro l h
    rw [walk_oids] at h
    cases hc : repo.find_commit o with
    | none => rw [hc] at h; cases h
    | some c =>
      rw [hc] at h
      cases hrec : walk_oids repo t os with
      | error e => rw [hrec] at h; cases h
      | ok rest =>
        rw [hrec] at h
        have := Except.ok.inj h
        rw [← this, List.filterMap_cons, hc]
        simp only [Option.map_some']
        rw [ih rest hrec]

theorem walk_branch_ok (repo : GitRepo) (cpb : Nat) (t : Tip) (l : List CommitIndexRow)
    (h : walk_branch repo cpb t = .ok l) : l = walk_branch_records repo cpb t := by
  rw [walk_branch] at h
  rw [walk_branch_records]
  cases ho : t.tip_oid with
  | none =>
    rw [ho] at h
    have := Except.ok.inj h
    rw [← this]
  | some oid =>
    rw [ho] at h
    exact walk_oids_ok repo t _ l h

theorem walk_all_ok (repo : GitRepo) (cpb : Nat) :
    ∀ (ts : List Tip) (cs : List CommitIndexRow), walk_all repo cpb ts = .ok cs →
      cs = ts.flatMap (walk_branch_records repo cpb) := by
  intro ts
  induction ts with
  | nil =>
    intro cs h
    rw [walk_all] at h
    have := Except.ok.inj h
    rw [← this]
    rfl
  | cons t ts ih =>
    intro cs h
    rw [walk_all] at h
    cases hb : walk_branch repo cpb t with
    | error e => rw [hb] at h; cases h
    | ok l =>
      rw [hb] at h
      cases hrest : walk_all repo cpb ts with
      | error e => rw [hrest] at h; cases h
      | ok rest =>
        rw [hrest] at h
        have := Except.ok.inj h
        rw [← this, List.flatMap_cons, walk_branch_ok repo cpb t l hb, ih rest hrest]

/-- C2: a successful commit-index build returns as branch tips exactly the
stable-sorted (descending by tip time, absent time ordered as 0) enumeration
of local and remote branches minus remote HEAD pointers, truncated to
max(branchesLimit, 1); each tip's persisted time is the optional resolved
tip time, never a substituted 0; and the branch list is independent of the
revwalk, so a branch is represented even when its walk yields no commits. -/
theorem build_branch_tips_selection (repo : GitRepo) (bl cpb : Nat)
    (bs : List CommitBranch) (cs : List CommitIndexRow)
    (hok : build_commit_index_for_repo repo bl cpb = .ok (bs, cs)) :
    bs = (retained_tips repo bl).map tip_to_branch ∧
    bs.length ≤ max bl 1 ∧
    List.Pairwise (fun a b : CommitBranch => b.tip_time.getD 0 ≤ a.tip_time.getD 0) bs ∧
    (∀ cb ∈ bs, ∃ b,
      ((cb.kind = "local" ∧ b ∈ repo.local_branches) ∨
        (cb.kind = "remote" ∧ b ∈ repo.remote_branches)) ∧
      b.name = some cb.name ∧ b.refname = some cb.refname ∧
      cb.tip_time = (b.target.bind repo.find_commit).map (fun c => c.time)) ∧
    (∀ cb ∈ bs, cb.kind = "remote" → is_remote_head cb.name = false) ∧
    (∀ w bs2 cs2,
      build_commit_index_for_repo { repo with revwalk := w } bl cpb = .ok (bs2, cs2) →
      bs2 = bs) := by
  have hbs := (build_ok_parts repo bl cpb bs cs hok).1
  have hmem : ∀ cb ∈ bs, ∃ t ∈ collect_tips repo, cb = tip_to_branch t := by
    intro cb hcb
    rw [hbs] at hcb
    obtain ⟨t, ht, hcb2⟩ := List.mem_map.mp hcb
    refine ⟨t, ?_, hcb2.symm⟩
    have ht2 : t ∈ List.insertionSort tip_le (collect_tips repo) :=
      List.take_subset _ _ ht
    exact (List.mem_insertionSort tip_le).mp ht2
  refine ⟨hbs, ?_, ?_, ?_, ?_, ?_⟩
  · rw [hbs, List.length_map, retained_tips]
    exact List.length_take_le _ _
  · rw [hbs]
    refine List.pairwise_map.mpr ?_
    refine List.Pairwise.sublist (List.take_sublist _ _) ?_
    exact List.sorted_insertionSort tip_le (collect_tips repo)
  · intro cb hcb
    obtain ⟨t, ht, hcb2⟩ := hmem cb hcb
    subst hcb2
    rcases List.mem_append.mp ht with hl | hr
    · obtain ⟨hkind, -, b, hb, hbn, hbr, hbt, -⟩ := tips_for_mem repo "local" _ t hl
      exact ⟨b, Or.inl ⟨hkind, hb⟩, hbn, hbr, hbt⟩
    · obtain ⟨hkind, -, b, hb, hbn, hbr, hbt, -⟩ := tips_for_mem repo "remote" _ t hr
      exact ⟨b, Or.inr ⟨hkind, hb⟩, hbn, hbr, hbt⟩
  · intro cb hcb hremote
    obtain ⟨t, ht, hcb2⟩ := hmem cb hcb
    subst hcb2
    rcases List.mem_append.mp ht with hl | hr
    · have hkind := (tips_for_mem repo "local" _ t hl).1
      rw [tip_to_branch] at hremote
      rw [hkind] at hremote
      simp at hremote
    · obtain ⟨-, hguard, -⟩ := tips_for_mem repo "remote" _ t hr
      simpa using hguard
  · intro w bs2 cs2 hok2
    have hbs2 := (build_ok_parts { repo with revwalk := w } bl cpb bs2 cs2 hok2).1
    rw [hbs2, hbs]
    rfl

/-- C3: on a successful build the commit rows are the concatenation of one
block per retained tip; each block holds at most max(commitsPerBranch, 1)
rows (the walk stops at the cap); whenever the revwalk emits oids in
descending commit-time order — the TIME sort mode — the block's rows are in
descending time order; and a commit reached by several retained branches
within their caps yields one row per branch (the per-oid counts add up
across branches). -/
theorem build_commit_walk_bounded_ordered (repo : GitRepo) (bl cpb : Nat)
    (bs : List CommitBranch) (cs : List CommitIndexRow)
    (hok : build_commit_index_for_repo repo bl cpb = .ok (bs, cs)) :
    cs = (retained_tips repo bl).flatMap (walk_branch_records repo cpb) ∧
    (∀ t, (walk_branch_records repo cpb t).length ≤ max cpb 1) ∧
    (∀ t, List.Pairwise
        (fun o1 o2 => commit_time_key repo o2 ≤ commit_time_key repo o1) (tip_walk repo t) →
      List.Pairwise (fun r1 r2 : CommitIndexRow => r2.time.getD 0 ≤ r1.time.getD 0)
        (walk_branch_records repo cpb t)) ∧
    (∀ o : String, (cs.filter (fun r => r.oid == o)).length =
      ((retained_tips repo bl).map
        (fun t => ((walk_branch_records repo cpb t).filter (fun r => r.oid == o)).length)).sum) := by
  have hcs : cs = (retained_tips repo bl).flatMap (walk_branch_records repo cpb) :=
    walk_all_ok repo cpb _ cs (build_ok_parts repo bl cpb bs cs hok).2
  refine ⟨hcs, ?_, ?_, ?_⟩
  · intro t
    rw [walk_branch_records]
    cases t.tip_oid with
    | none => simp
    | some oid =>
      exact le_trans (List.length_filterMap_le _ _) (List.length_take_le _ _)
  · intro t hp
    rw [walk_branch_records]
    cases ho : t.tip_oid with
    | none => simp
    | some oid =>
      rw [tip_walk, ho] at hp
      have hptake : List.Pairwise
          (fun o1 o2 => commit_time_key repo o2 ≤ commit_time_key repo o1)
          ((repo.revwalk oid).take (max cpb 1)) :=
        List.Pairwise.sublist (List.take_sublist _ _) hp
      refine List.pairwise_filterMap.mpr ?_
      refine hptake.imp_of_mem ?_
      intro o1 o2 _ _ hk
      intro r1 hr1 r2 hr2
      obtain ⟨c1, hc1, he1⟩ := Option.map_eq_some'.mp hr1
      obtain ⟨c2, hc2, he2⟩ := Option.map_eq_some'.mp hr2
      rw [← he1, ← he2]
      show (commit_row_of t o2 c2).time.getD 0 ≤ (commit_row_of t o1 c1).time.getD 0
      have hk1 : commit_time_key repo o1 = c1.time := by
        rw [commit_time_key, hc1]
        rfl
      have hk2 : commit_time_key repo o2 = c2.time := by
        rw [commit_time_key, hc2]
        rfl
      rw [hk1, hk2] at hk
      exact hk
  · intro o
    rw [hcs, List.filter_flatMap, List.length_flatMap]
    simp [Function.comp_def]

/-- Concrete repository for the build witnesses: two local branches, a
remote HEAD pointer (excluded) and a remote branch, two commits with times
100 and 200, and time-sorted revwalks. -/
def sample_git_repo : GitRepo :=
  { local_branches :=
      [{ name := some "main", refname := some "refs/heads/main", target := some "c2" },
       { name := some "old", refname := some "refs/heads/old", target := some "c1" }],
    remote_branches :=
      [{ name := some "origin/HEAD", refname := some "refs/remotes/origin/HEAD",
         target := some "c2" },
       { name := some "origin/main", refname := some "refs/remotes/origin/main",
         target := some "c2" }],
    find_commit := fun o =>
      if o = "c1" then
        some { time := 100, author := some "al", email := none, summary := some "one",
               message := some "one body" }
      else if o = "c2" then
        some { time := 200, author := some "bo", email := some "b@x", summary := some "two",
               message := none }
      else none,
    revwalk := fun o => if o = "c2" then ["c2", "c1"] else if o = "c1" then ["c1"] else [] }

/-- The branch tips `sample_git_repo` yields with a branch limit of 2. -/
def sample_build_branches : List CommitBranch :=
  [{ kind := "local", name := "main", refname := "refs/heads/main", tip_time := some 200 },
   { kind := "remote", name := "origin/main", refname := "refs/remotes/origin/main",
     tip_time := some 200 }]

/-- The commit rows `sample_git_repo` yields with limits 2 and 1. -/
def sample_build_commits : List CommitIndexRow :=
  [{ refname := "refs/heads/main", branch_kind := "local", branch_name := "main",
     oid := "c2", time := some 200, author := some "bo", email := some "b@x",
     summary := some "two", message := none },
   { refname := "refs/remotes/origin/main", branch_kind := "remote",
     branch_name := "origin/main", oid := "c2", time := some 200, author := some "bo",
     email := some "b@x", summary := some "two", message := none }]

theorem build_branch_tips_selection_witness :
    build_commit_index_for_repo sample_git_repo 2 1 =
      .ok (sample_build_branches, sample_build_commits) ∧
    sample_build_branches = (retained_tips sample_git_repo 2).map tip_to_branch ∧
    sample_build_branches.length ≤ max 2 1 :=
  ⟨rfl,
   (build_branch_tips_selection sample_git_repo 2 1 sample_build_branches
     sample_build_commits rfl).1,
   (build_branch_tips_selection sample_git_repo 2 1 sample_build_branches
     sample_build_commits rfl).2.1⟩

/-- The retained tip for the local `main` branch of `sample_git_repo`. -/
def sample_tip_main : Tip :=
  { kind := "local", name := "main", refname := "refs/heads/main", tip_time := some 200,
    tip_oid := some "c2" }

theorem build_commit_walk_bounded_ordered_witness :
    build_commit_index_for_repo sample_git_repo 2 1 =
      .ok (sample_build_branches, sample_build_commits) ∧
    List.Pairwise
      (fun o1 o2 => commit_time_key sample_git_repo o2 ≤ commit_time_key sample_git_repo o1)
      (tip_walk sample_git_repo sample_tip_main) ∧
    sample_build_commits =
      (retained_tips sample_git_repo 2).flatMap (walk_branch_records sample_git_repo 1) ∧
    List.Pairwise (fun r1 r2 : CommitIndexRow => r2.time.getD 0 ≤ r1.time.getD 0)
      (walk_branch_records sample_git_repo 1 sample_tip_main) :=
  ⟨rfl, by decide,
   (build_commit_walk_bounded_ordered sample_git_repo 2 1 sample_build_branches
     sample_build_commits rfl).1,
   (build_commit_walk_bounded_ordered sample_git_repo 2 1 sample_build_branches
     sample_build_commits rfl).2.2.1 sample_tip_main (by decide)⟩

theorem discover_git_repos_sorted_unique_complete_witness :
    discover_git_repos ["vendor"] none "" scan_example_tree = ["/root/a", "/root/b"] ∧
    (discover_git_repos ["vendor"] none "" scan_example_tree).Nodup :=
  ⟨(discover_git_repos_sorted_unique_complete ["vendor"] none "" scan_example_tree).2.2.2,
   (discover_git_repos_sorted_unique_complete ["vendor"] none "" scan_example_tree).2.1⟩

/-- Tree with repositories at /x/repo, /x/repo/inner (a nested repository)
and /x/repo-utils. -/
def nested_repo_tree : DirTree :=
  .mk "x"
    (.cons
      (.mk "repo"
        (.cons (.mk ".git" .nil)
          (.cons (.mk "inner" (.cons (.mk ".git" .nil) .nil)) .nil)))
      (.cons (.mk "repo-utils" (.cons (.mk ".git" .nil) .nil)) .nil))

/-- C9 counterexample: discovery orders /x/repo/inner before /x/repo-utils,
as `Vec<PathBuf>::sort` does (component "repo" sorts before "repo-utils"),
although "/x/repo-utils" is code-point smaller than "/x/repo/inner" (the
hyphen sorts before the slash) — so the returned list is not sorted in
plain code-point-lexicographic order on the path strings. -/
theorem discover_codepoint_sorted_claim_false :
    discover_git_repos [] none "" nested_repo_tree =
      ["/x/repo", "/x/repo/inner", "/x/repo-utils"] ∧
    lex_le "/x/repo-utils".toList "/x/repo/inner".toList = true ∧
    "/x/repo-utils" ≠ "/x/repo/inner" ∧
    ¬ List.Pairwise (fun a b : String => lex_le a.toList b.toList = true)
      (discover_git_repos [] none "" nested_repo_tree) := by
  refine ⟨by decide, by decide, by decide, by decide⟩

end Coderoom
